import Mathlib

/-!
# Verification of an R-tree spatial index with nearest-neighbor and BBS skyline search

Shallow embedding of `create_rtree.py` (R-tree construction: insertion,
MBR propagation, overflow splitting), `Task1.py` (best-first
nearest-neighbor search) and `Task2.py` (branch-and-bound skyline search,
divide-and-conquer driver).

Coordinates are modelled as rationals (the source uses float64; every
algorithmic decision in the source is a field comparison, which agrees with
the exact-arithmetic model whenever the float computations do not round).
Square roots are kept out of the executable search code: the source only
ever *compares* `sqrt`-values, and `sqrt` is strictly monotone on
nonnegative reals, so the searches are embedded with squared distances;
the bridge lemmas relating the two are proved below.  Real-valued
`euclidean_distance` / `mbr_min_distance` (with `Real.sqrt`) mirror the
source formulas for the distance-level statements.
-/

/-- A 2-D data point `{id, x, y}` as read by `load_points` / `read_dataset`. -/
structure Point where
  id : Nat
  x : ℚ
  y : ℚ
deriving DecidableEq, Repr

/-- A minimum bounding rectangle: the `MBR` dictionary `{x1, y1, x2, y2}`. -/
structure MBR where
  x1 : ℚ
  y1 : ℚ
  x2 : ℚ
  y2 : ℚ
deriving DecidableEq, Repr

/-- A tree node (`Node` in `create_rtree.py`): an MBR, a list of data points
(populated for leaves) and a list of child nodes (populated for internal
nodes).  The `parent` back-pointer of the source is purely navigational
(used only to walk upward during overflow handling) and is represented
implicitly by the recursive structure of the insertion function. -/
inductive RNode where
  | mk (mbr : MBR) (data_points : List Point) (child_nodes : List RNode)

/-- The node's MBR. -/
def RNode.mbr : RNode → MBR
  | .mk m _ _ => m

/-- The node's data-point list (`Node.data_points`). -/
def RNode.data_points : RNode → List Point
  | .mk _ ps _ => ps

/-- The node's child list (`Node.child_nodes`). -/
def RNode.child_nodes : RNode → List RNode
  | .mk _ _ cs => cs

/-- `Node.is_leaf`: true iff the child list is empty. -/
def RNode.is_leaf (n : RNode) : Bool := n.child_nodes.isEmpty

mutual
/-- Size measure for termination: number of nodes in the subtree. -/
def RNode.size : RNode → Nat
  | .mk _ _ cs => 1 + sizeList cs
/-- Total size of a list of subtrees. -/
def sizeList : List RNode → Nat
  | [] => 0
  | n :: ns => RNode.size n + sizeList ns
end

mutual
/-- All data points stored in the subtree (leaf points, transitively). -/
def RNode.allPoints : RNode → List Point
  | .mk _ ps cs => ps ++ allPointsList cs
/-- All data points stored in a forest. -/
def allPointsList : List RNode → List Point
  | [] => []
  | n :: ns => n.allPoints ++ allPointsList ns
end

/-- Capacity constant `B = 4`: maximum entries per node. -/
def B : Nat := 4

/-- Minimum fill after a split: `math.ceil(0.4 * B)`. -/
def minFill : Nat := ⌈(0.4 : ℚ) * (B : ℚ)⌉.toNat

/-- `Node.perimeter`: the half-perimeter `(x2-x1) + (y2-y1)` of an MBR. -/
def perimeter (m : MBR) : ℚ := (m.x2 - m.x1) + (m.y2 - m.y1)

/-- The sentinel MBR a fresh `Node()` starts with: all corners `-1`. -/
def freshMBR : MBR := ⟨-1, -1, -1, -1⟩

/-- A fresh `Node()`: sentinel MBR, no points, no children. -/
def freshNode : RNode := .mk freshMBR [] []

/-! ## Geometry -/

/-- Squared Euclidean distance `(q.x - p.x)² + (q.y - p.y)²`.  The source's
`euclidean_distance` is `sqrt` of this; the searches only *compare*
distances, and `sqrt` is strictly monotone on nonnegatives, so the
executable search code below works with this square. -/
def distSq (p q : Point) : ℚ := (q.x - p.x) ^ 2 + (q.y - p.y) ^ 2

/-- `euclidean_distance(point1, point2)`:
`sqrt((point2.x - point1.x)² + (point2.y - point1.y)²)`. -/
noncomputable def euclidean_distance (p q : Point) : ℝ := Real.sqrt ((distSq p q : ℚ) : ℝ)

/-- `dx = max(mbr.x1 - q.x, 0, q.x - mbr.x2)` from `mbr_min_distance`. -/
def mbrDx (m : MBR) (q : Point) : ℚ := max (max (m.x1 - q.x) 0) (q.x - m.x2)

/-- `dy = max(mbr.y1 - q.y, 0, q.y - mbr.y2)` from `mbr_min_distance`. -/
def mbrDy (m : MBR) (q : Point) : ℚ := max (max (m.y1 - q.y) 0) (q.y - m.y2)

/-- Squared version of `mbr_min_distance`: `dx² + dy²`. -/
def mbrMinDistSq (m : MBR) (q : Point) : ℚ := mbrDx m q ^ 2 + mbrDy m q ^ 2

/-- `mbr_min_distance(mbr, query) = sqrt(dx² + dy²)`. -/
noncomputable def mbr_min_distance (m : MBR) (q : Point) : ℝ :=
  Real.sqrt ((mbrMinDistSq m q : ℚ) : ℝ)

/-- `dominates(a, b)`: `a.x ≤ b.x and a.y ≥ b.y and (a.x < b.x or a.y > b.y)`. -/
def dominates (a b : Point) : Prop :=
  a.x ≤ b.x ∧ a.y ≥ b.y ∧ (a.x < b.x ∨ a.y > b.y)

instance (a b : Point) : Decidable (dominates a b) := by
  unfold dominates; infer_instance

/-- `mindist_to_origin(mbr) = mbr.x1² + mbr.y2²` (the BBS priority key). -/
def mindist_to_origin (m : MBR) : ℚ := m.x1 ^ 2 + m.y2 ^ 2

/-- Membership of a point in a rectangle (boundary included). -/
def inMBR (m : MBR) (p : Point) : Prop :=
  m.x1 ≤ p.x ∧ p.x ≤ m.x2 ∧ m.y1 ≤ p.y ∧ p.y ≤ m.y2

instance (m : MBR) (p : Point) : Decidable (inMBR m p) := by
  unfold inMBR; infer_instance

/-! ## Stable sorting

Python's `sorted(..., key=...)` is a stable sort by a numeric key.  A stable
sort's output is *uniquely determined* by the key order together with the
input order (equal-key elements keep their relative order), so any stable
implementation is extensionally the Python one.  We use the insertion sort
that inserts each new element after all already-placed elements with a
key `≤` its own, folding from the left, which is stable. -/

/-- Insert `a` after every element whose key is `≤ key a`. -/
def stableInsert (key : α → ℚ) (a : α) : List α → List α
  | [] => [a]
  | b :: bs => if key a < key b then a :: b :: bs else b :: stableInsert key a bs

/-- Stable sort by a rational key (Python `sorted(l, key=...)`). -/
def sortByKey (key : α → ℚ) (l : List α) : List α :=
  l.foldl (fun acc a => stableInsert key a acc) []

/-! ## R-tree maintenance operations (`create_rtree.py`) -/

/-- `min` of a Python list of rationals (the source only ever applies it to
nonempty lists; `[]` is given the junk value `0`, on which `update_mbr`'s
Python original would raise instead). -/
def listMin : List ℚ → ℚ
  | [] => 0
  | x :: xs => xs.foldl min x

/-- `max` of a Python list of rationals (junk value `0` on `[]`). -/
def listMax : List ℚ → ℚ
  | [] => 0
  | x :: xs => xs.foldl max x

/-- `RTree.update_mbr(node)`: recompute the node's MBR from scratch — for a
leaf from its data points' coordinates, for an internal node from the
`x1`/`x2` (resp. `y1`/`y2`) corners of all children. -/
def update_mbr (n : RNode) : RNode :=
  if n.child_nodes.isEmpty then
    .mk ⟨listMin (n.data_points.map Point.x), listMin (n.data_points.map Point.y),
         listMax (n.data_points.map Point.x), listMax (n.data_points.map Point.y)⟩
      n.data_points n.child_nodes
  else
    .mk ⟨listMin (n.child_nodes.map (fun c => c.mbr.x1) ++ n.child_nodes.map (fun c => c.mbr.x2)),
         listMin (n.child_nodes.map (fun c => c.mbr.y1) ++ n.child_nodes.map (fun c => c.mbr.y2)),
         listMax (n.child_nodes.map (fun c => c.mbr.x1) ++ n.child_nodes.map (fun c => c.mbr.x2)),
         listMax (n.child_nodes.map (fun c => c.mbr.y1) ++ n.child_nodes.map (fun c => c.mbr.y2))⟩
      n.data_points n.child_nodes

/-- `RTree.add_data_point(node, data_point)`: append the point to the leaf's
list and enlarge each MBR side that the point exceeds (note: starting from
the fresh sentinel MBR `(-1,-1,-1,-1)`, a side not exceeded is *not*
tightened). -/
def add_data_point (n : RNode) (p : Point) : RNode :=
  .mk ⟨if p.x < n.mbr.x1 then p.x else n.mbr.x1,
       if p.y < n.mbr.y1 then p.y else n.mbr.y1,
       if p.x > n.mbr.x2 then p.x else n.mbr.x2,
       if p.y > n.mbr.y2 then p.y else n.mbr.y2⟩
    (n.data_points ++ [p]) n.child_nodes

/-- `RTree.add_child(node, child)`: append the child and enlarge each MBR
side that the child's MBR exceeds. -/
def add_child (n c : RNode) : RNode :=
  .mk ⟨if c.mbr.x1 < n.mbr.x1 then c.mbr.x1 else n.mbr.x1,
       if c.mbr.y1 < n.mbr.y1 then c.mbr.y1 else n.mbr.y1,
       if c.mbr.x2 > n.mbr.x2 then c.mbr.x2 else n.mbr.x2,
       if c.mbr.y2 > n.mbr.y2 then c.mbr.y2 else n.mbr.y2⟩
    n.data_points (n.child_nodes ++ [c])

/-- `RTree.peri_increase(node, p)`: half-perimeter of the MBR enlarged to
absorb `p`, minus the current half-perimeter. -/
def peri_increase (n : RNode) (p : Point) : ℚ :=
  (max (max n.mbr.x1 n.mbr.x2) p.x - min (min n.mbr.x1 n.mbr.x2) p.x
    + (max (max n.mbr.y1 n.mbr.y2) p.y - min (min n.mbr.y1 n.mbr.y2) p.y))
    - perimeter n.mbr

/-- Index-returning version of `RTree.choose_subtree`'s loop: starting from
`sys.maxsize`, keep the first child whose perimeter increase is *strictly*
smaller than the running minimum (so ties keep the earliest child). -/
def chooseIdxAux (p : Point) : List RNode → ℚ → Nat → Nat → Nat
  | [], _, best, _ => best
  | c :: cs, curMin, best, j =>
    if peri_increase c p < curMin then chooseIdxAux p cs (peri_increase c p) j (j + 1)
    else chooseIdxAux p cs curMin best (j + 1)

/-- Index of the child `RTree.choose_subtree` picks (the source's initial
`sys.maxsize` bound makes the first child always replace the initial
`None`, so the fold starts from child 0). -/
def chooseIdx (cs : List RNode) (p : Point) : Nat :=
  match cs with
  | [] => 0
  | c :: rest => chooseIdxAux p rest (peri_increase c p) 0 1

/-- Python `range(a, b)`: the list `[a, a+1, ..., b-1]` (empty if `b ≤ a`). -/
def pyRange (a b : Nat) : List Nat := List.range' a (b - a)

/-- Summed half-perimeter of a candidate split pair. -/
def sumPeri (c : RNode × RNode) : ℚ := perimeter c.1.mbr + perimeter c.2.mbr

/-- The `best_perimeter` fold of `RTree.split`: keep the pair whose summed
half-perimeter is *strictly* smaller than the running best, so ties keep
the first candidate in iteration order.  (The source's initial
`sys.maxsize` makes the first candidate always win against the initial
fresh pair.) -/
def pickBest : List (RNode × RNode) → RNode × RNode
  | [] => (freshNode, freshNode)
  | c :: cs => cs.foldl (fun best cand => if sumPeri cand < sumPeri best then cand else best) c

/-- Split candidates for a leaf: for each sort order (`x` then `y`) and each
split position `i ∈ range(ceil(0.4·B), m − ceil(0.4·B) + 1)`, the pair of
fresh nodes over `divide[0:i]` and `divide[i:m]` with recomputed MBRs. -/
def splitCandidatesLeaf (pts : List Point) : List (RNode × RNode) :=
  [sortByKey Point.x pts, sortByKey Point.y pts].flatMap (fun divide =>
    (pyRange minFill (pts.length - minFill + 1)).map (fun i =>
      (update_mbr (.mk freshMBR (divide.take i) []),
       update_mbr (.mk freshMBR (divide.drop i) []))))

/-- Split candidates for an internal node: sort orders by the children's
`x1`, `x2`, `y1`, `y2` corners. -/
def splitCandidatesInternal (cs : List RNode) : List (RNode × RNode) :=
  [sortByKey (fun c => c.mbr.x1) cs, sortByKey (fun c => c.mbr.x2) cs,
   sortByKey (fun c => c.mbr.y1) cs, sortByKey (fun c => c.mbr.y2) cs].flatMap (fun divide =>
    (pyRange minFill (cs.length - minFill + 1)).map (fun i =>
      (update_mbr (.mk freshMBR [] (divide.take i)),
       update_mbr (.mk freshMBR [] (divide.drop i)))))

/-- All candidates `RTree.split` evaluates for a node, in iteration order. -/
def splitCandidates (u : RNode) : List (RNode × RNode) :=
  if u.child_nodes.isEmpty then splitCandidatesLeaf u.data_points
  else splitCandidatesInternal u.child_nodes

/-- `RTree.split(u)`: the minimal-summed-half-perimeter candidate pair
(first found wins ties).  The source's final re-parenting loop only writes
`parent` back-pointers, which the functional model represents implicitly. -/
def split (u : RNode) : RNode × RNode := pickBest (splitCandidates u)

mutual
/-- `RTree.insert(u, p)` as a function from the subtree rooted at `u` to
either (`Sum.inl`) the updated subtree or (`Sum.inr`) the two split
products that replace `u` in its parent.  This mirrors the source's
control flow exactly:
* a leaf appends the point (`add_data_point`, incremental MBR update) and
  splits if it now exceeds `B`;
* an internal node recurses into the `choose_subtree` child; if the child
  did not split, `update_mbr` is applied to it (the `self.update_mbr(v)`
  call after the recursive `insert`) and `u`'s own MBR is left untouched;
  if the child split, the child is removed from the list and the two
  products are attached with `add_child` (which only enlarges `u`'s MBR),
  and `u` itself splits if it now exceeds `B` — the source performs this
  attach/cascade inside `handle_overflow` via `parent` pointers before the
  recursion unwinds, and the unwinding `update_mbr(v)` calls on the
  discarded pre-split objects have no effect on the live tree. -/
def insertNode : RNode → Point → RNode ⊕ RNode × RNode
  | .mk m ps cs, p =>
    if cs.isEmpty then
      let u' := add_data_point (.mk m ps cs) p
      if u'.data_points.length > B then Sum.inr (split u') else Sum.inl u'
    else
      let i := chooseIdx cs p
      match insertChild cs i p with
      | Sum.inl v' => Sum.inl (.mk m ps (cs.set i (update_mbr v')))
      | Sum.inr (a, b) =>
        let u' := add_child (add_child (.mk m ps (cs.eraseIdx i)) a) b
        if u'.child_nodes.length > B then Sum.inr (split u') else Sum.inl u'
/-- Recurse into the `i`-th child of the list (structural helper realizing
`self.insert(v, p)` on the chosen subtree). -/
def insertChild : List RNode → Nat → Point → RNode ⊕ RNode × RNode
  | [], _, _ => Sum.inl freshNode
  | c :: _, 0, p => insertNode c p
  | _ :: cs, i + 1, p => insertChild cs i p
end

/-- One `rtree.insert(rtree.root, p)` call including `handle_overflow`'s
root case: when the root splits, a fresh root adopts the two products via
`add_child` and is then `update_mbr`-ed. -/
def rtree_insert (root : RNode) (p : Point) : RNode :=
  match insertNode root p with
  | Sum.inl r => r
  | Sum.inr (a, b) => update_mbr (add_child (add_child freshNode a) b)

/-- `create_rtree.main(points_list)`: fresh root, then insert each point. -/
def buildTree (ps : List Point) : RNode := ps.foldl rtree_insert freshNode

/-! ## Nearest-neighbor search (`Task1.py`) -/

/-- Is `d` strictly below the running best distance?  `none` is the initial
`min_distance = float('inf')`, which every finite value beats. -/
def beatsBest (d : ℚ) : Option (ℚ × Point) → Bool
  | none => true
  | some (bd, _) => d < bd

/-- The leaf scan of `rtree_nearest_neighbor_search`: update the running
`(min_distance, nearest_point)` pair whenever a strictly smaller distance
is found (ties keep the earlier point). -/
def scanLeaf (q : Point) (pts : List Point) (best : Option (ℚ × Point)) : Option (ℚ × Point) :=
  pts.foldl (fun b pt => if beatsBest (distSq pt q) b then some (distSq pt q, pt) else b) best

/-- The FIFO work-list loop of `rtree_nearest_neighbor_search`: pop the
front node; scan it if it is a leaf; otherwise enqueue every child whose
MBR lower bound is strictly below the current best distance. -/
def nnLoop (q : Point) : List RNode → Option (ℚ × Point) → Option (ℚ × Point)
  | [], best => best
  | n :: rest, best =>
    if n.child_nodes.isEmpty then nnLoop q rest (scanLeaf q n.data_points best)
    else nnLoop q
      (rest ++ n.child_nodes.filter (fun c => beatsBest (mbrMinDistSq c.mbr q) best)) best
termination_by L => sizeList L
decreasing_by
  · have hpos : 0 < n.size := by cases n with | mk m ps cs => simp [RNode.size]
    simp only [sizeList]
    omega
  · have happ : ∀ l1 l2 : List RNode, sizeList (l1 ++ l2) = sizeList l1 + sizeList l2 := by
      intro l1 l2
      induction l1 with
      | nil => simp [sizeList]
      | cons a l ih => simp [sizeList, ih]; omega
    have hfil : ∀ (f : RNode → Bool) (l : List RNode), sizeList (l.filter f) ≤ sizeList l := by
      intro f l
      induction l with
      | nil => simp [sizeList]
      | cons a l ih =>
        by_cases h : f a
        · simp [List.filter_cons, h, sizeList]
          omega
        · simp only [List.filter_cons, Bool.not_eq_true] at *
          simp [h, sizeList]
          omega
    have hch : sizeList n.child_nodes < n.size := by
      cases n with | mk m ps cs => simp [RNode.size, RNode.child_nodes]
    simp only [sizeList]
    rw [happ]
    have := hfil (fun c => beatsBest (mbrMinDistSq c.mbr q) best) n.child_nodes
    omega

/-- `rtree_nearest_neighbor_search(rtree, query)`: seed the work list with
the root, run the loop, return the nearest point (or `none` = Python
`None` when no point was ever found). -/
def rtree_nearest_neighbor_search (root : RNode) (q : Point) : Option Point :=
  (nnLoop q [root] none).map Prod.snd

/-! ## BBS skyline search (`Task2.py`) -/

/-- The "dominance-relevant corner" of a child MBR pushed/tested by BBS:
`{'x': mbr.x1, 'y': mbr.y2}`.  The source builds it without an `id` key and
`dominates` never reads `id`, so the model fixes `id := 0`. -/
def cornerPoint (m : MBR) : Point := ⟨0, m.x1, m.y2⟩

/-- Leaf-point processing of `bbs_skyline_search`: if no current skyline
member dominates `p`, drop every member `p` dominates and append `p`. -/
def processPoint (sky : List Point) (p : Point) : List Point :=
  if sky.any (fun s => decide (dominates s p)) then sky
  else (sky.filter (fun s => decide (¬ dominates p s))) ++ [p]

/-- The priority-list loop of `bbs_skyline_search`: pop the front (lowest
`mindist_to_origin`) entry; a leaf folds `processPoint` over its points; an
internal node pushes every child whose corner point no skyline member
dominates, then re-sorts the list by the key. -/
def bbsLoop : List (ℚ × RNode) → List Point → List Point
  | [], sky => sky
  | (_, n) :: rest, sky =>
    if n.child_nodes.isEmpty then bbsLoop rest (n.data_points.foldl processPoint sky)
    else bbsLoop
      (sortByKey Prod.fst
        (rest ++ (n.child_nodes.filter
            (fun c => !(sky.any (fun s => decide (dominates s (cornerPoint c.mbr)))))).map
          (fun c => (mindist_to_origin c.mbr, c))))
      sky
termination_by L => sizeList (L.map Prod.snd)
decreasing_by
  · have hpos : 0 < n.size := by cases n with | mk m ps cs => simp [RNode.size]
    simp only [List.map, sizeList]
    omega
  · have hperm : ∀ (key : ℚ × RNode → ℚ) (l : List (ℚ × RNode)), List.Perm (sortByKey key l) l := by
      intro key l
      have hins : ∀ (a : ℚ × RNode) (acc : List (ℚ × RNode)),
          List.Perm (stableInsert key a acc) (a :: acc) := by
        intro a acc
        induction acc with
        | nil => simp [stableInsert]
        | cons b bs ih =>
          simp only [stableInsert]
          by_cases h : key a < key b
          · simp [h]
          · simp only [h, if_false]
            exact (ih.cons b).trans (List.Perm.swap a b bs)
      have hfold : ∀ (l acc : List (ℚ × RNode)),
          List.Perm (l.foldl (fun acc a => stableInsert key a acc) acc) (l ++ acc) := by
        intro l
        induction l with
        | nil => simp
        | cons a as ih =>
          intro acc
          refine (ih (stableInsert key a acc)).trans ?_
          exact (List.Perm.append_left as (hins a acc)).trans List.perm_middle
      simpa using hfold l []
    have happ : ∀ l1 l2 : List RNode, sizeList (l1 ++ l2) = sizeList l1 + sizeList l2 := by
      intro l1 l2
      induction l1 with
      | nil => simp [sizeList]
      | cons a l ih => simp [sizeList, ih]; omega
    have hsum : ∀ l1 l2 : List RNode, List.Perm l1 l2 → sizeList l1 = sizeList l2 := by
      intro l1 l2 h
      induction h with
      | nil => rfl
      | cons x _ ih => simp [sizeList, ih]
      | swap x y l => simp [sizeList]; omega
      | trans _ _ ih1 ih2 => omega
    have hfil : ∀ (f : RNode → Bool) (l : List RNode), sizeList (l.filter f) ≤ sizeList l := by
      intro f l
      induction l with
      | nil => simp [sizeList]
      | cons a l ih =>
        by_cases h : f a
        · simp [List.filter_cons, h, sizeList]
          omega
        · simp only [List.filter_cons, Bool.not_eq_true] at *
          simp [h, sizeList]
          omega
    have hmapsnd : ∀ (l : List RNode) (f : RNode → ℚ × RNode),
        (∀ c, (f c).2 = c) → (l.map f).map Prod.snd = l := by
      intro l f hf
      induction l with
      | nil => simp
      | cons a l ih => simp [hf, ih]
    have hch : sizeList n.child_nodes < n.size := by
      cases n with | mk m ps cs => simp [RNode.size, RNode.child_nodes]
    have h1 := hsum _ _ (List.Perm.map Prod.snd (hperm Prod.fst
      (rest ++ (n.child_nodes.filter
          (fun c => !(sky.any (fun s => decide (dominates s (cornerPoint c.mbr)))))).map
        (fun c => (mindist_to_origin c.mbr, c)))))
    rw [h1, List.map_append, happ]
    rw [hmapsnd _ _ (fun c => rfl)]
    have := hfil
      (fun c => !(sky.any fun s => decide (dominates s (cornerPoint c.mbr)))) n.child_nodes
    simp only [List.map, sizeList]
    omega

/-- `bbs_skyline_search(rtree)`: seed the priority list with the root
(keyed by `mindist_to_origin` of its MBR), sort, and run the loop starting
from an empty skyline. -/
def bbs_skyline_search (root : RNode) : List Point :=
  bbsLoop (sortByKey Prod.fst [(mindist_to_origin root.mbr, root)]) []

/-- `divide_dataset(points_list)`: sort by `x` and split at the middle
index `len // 2`. -/
def divide_dataset (ps : List Point) : List Point × List Point :=
  (( sortByKey Point.x ps).take (ps.length / 2), (sortByKey Point.x ps).drop (ps.length / 2))

/-- `bbs_divide_and_conquer(points_list)`: build one R-tree per half, run
BBS on each, concatenate, and keep the points of the union no point of the
union dominates. -/
def bbs_divide_and_conquer (ps : List Point) : List Point :=
  let combined := bbs_skyline_search (buildTree (divide_dataset ps).1)
    ++ bbs_skyline_search (buildTree (divide_dataset ps).2)
  combined.filter (fun p => !(combined.any (fun q => decide (dominates q p))))

/-! ## Structural invariants used by the search proofs -/

mutual
/-- Shape well-formedness: a node with children holds no data points (in
the source, `data_points` and `child_nodes` are never both populated). -/
def wfShape : RNode → Prop
  | .mk _ ps cs => (cs ≠ [] → ps = []) ∧ wfShapeList cs
/-- Shape well-formedness of a forest. -/
def wfShapeList : List RNode → Prop
  | [] => True
  | n :: ns => wfShape n ∧ wfShapeList ns
end

mutual
/-- Containment: the node's MBR contains every data point of its subtree,
and recursively so for all descendants. -/
def contained : RNode → Prop
  | .mk m ps cs => (∀ p ∈ (RNode.mk m ps cs).allPoints, inMBR m p) ∧ containedList cs
/-- Containment for every node of a forest. -/
def containedList : List RNode → Prop
  | [] => True
  | n :: ns => contained n ∧ containedList ns
end

/-- The brute-force skyline membership predicate: `p` is an input point no
input point dominates (`sequential_scan_skyline`'s filter). -/
def nondominated (ps : List Point) (p : Point) : Prop :=
  p ∈ ps ∧ ∀ q ∈ ps, ¬ dominates q p

/-- The `i`-th node of a child list (`freshNode` out of bounds; only used
with in-bounds indices). -/
def nthChild (cs : List RNode) (i : Nat) : RNode := cs.getD i freshNode

mutual
/-- The leaf that `choose_subtree` descent starting at `t` delivers `p` to. -/
def receivingLeaf : RNode → Point → RNode
  | .mk m ps cs, p =>
    if cs.isEmpty then .mk m ps cs else receivingLeafChild cs (chooseIdx cs p) p
/-- Structural helper: descend into the `i`-th child. -/
def receivingLeafChild : List RNode → Nat → Point → RNode
  | [], _, _ => freshNode
  | c :: _, 0, p => receivingLeaf c p
  | _ :: cs, i + 1, p => receivingLeafChild cs i p
end

mutual
/-- The child indices of the `choose_subtree` descent path for `p`. -/
def pathIndices : RNode → Point → List Nat
  | .mk _ _ cs, p =>
    if cs.isEmpty then [] else chooseIdx cs p :: pathIndicesChild cs (chooseIdx cs p) p
/-- Structural helper: descend into the `i`-th child. -/
def pathIndicesChild : List RNode → Nat → Point → List Nat
  | [], _, _ => []
  | c :: _, 0, p => pathIndices c p
  | _ :: cs, i + 1, p => pathIndicesChild cs i p
end

/-- Follow a list of child indices down from a node. -/
def getPath : RNode → List Nat → Option RNode
  | t, [] => some t
  | t, i :: is =>
    match t.child_nodes[i]? with
    | some c => getPath c is
    | none => none

/-- Number of entries a node holds: data points for a leaf, children for an
internal node (the quantity `is_overflow` compares against `B`). -/
def contentCount (u : RNode) : Nat :=
  if u.child_nodes.isEmpty then u.data_points.length else u.child_nodes.length

/-- The minimum summed half-perimeter over a candidate list. -/
def minSumPeri (l : List (RNode × RNode)) : ℚ := listMin (l.map sumPeri)

/-- The *first* candidate (in iteration order) achieving the minimum summed
half-perimeter — the specification of the split tie-break rule. -/
def firstMinCandidate (l : List (RNode × RNode)) : Option (RNode × RNode) :=
  l.find? (fun c => decide (sumPeri c = minSumPeri l))

theorem minFill_eq : minFill = 2 := by
  have : ⌈(0.4 : ℚ) * (B : ℚ)⌉ = 2 := by
    rw [Int.ceil_eq_iff]
    norm_num [B]
  simp [minFill, this]

/-- `r` is accounted for by the running skyline `sky`: it is a member, or
some member dominates it (the BBS loop invariant for processed points). -/
def covers (sky : List Point) (r : Point) : Prop :=
  r ∈ sky ∨ ∃ s ∈ sky, dominates s r

/-! ## Basic lemmas: sorting, sizes, subtree point lists -/

theorem stableInsert_perm (key : α → ℚ) (a : α) (acc : List α) :
    List.Perm (stableInsert key a acc) (a :: acc) := by
  induction acc with
  | nil => simp [stableInsert]
  | cons b bs ih =>
    simp only [stableInsert]
    by_cases h : key a < key b
    · simp [h]
    · simp only [h, if_false]
      exact (ih.cons b).trans (List.Perm.swap a b bs)

theorem sortByKey_perm (key : α → ℚ) (l : List α) : List.Perm (sortByKey key l) l := by
  have hfold : ∀ (l acc : List α),
      List.Perm (l.foldl (fun acc a => stableInsert key a acc) acc) (l ++ acc) := by
    intro l
    induction l with
    | nil => simp
    | cons a as ih =>
      intro acc
      refine (ih (stableInsert key a acc)).trans ?_
      exact (List.Perm.append_left as (stableInsert_perm key a acc)).trans List.perm_middle
  simpa using hfold l []

theorem allPointsList_append (l1 l2 : List RNode) :
    allPointsList (l1 ++ l2) = allPointsList l1 ++ allPointsList l2 := by
  induction l1 with
  | nil => simp [allPointsList]
  | cons a l ih => simp [allPointsList, ih]

theorem mem_allPointsList {p : Point} {l : List RNode} :
    p ∈ allPointsList l ↔ ∃ n ∈ l, p ∈ n.allPoints := by
  induction l with
  | nil => simp [allPointsList]
  | cons a l ih =>
    simp only [allPointsList, List.mem_append, ih, List.mem_cons]
    constructor
    · rintro (h | ⟨n, hn, hp⟩)
      · exact ⟨a, Or.inl rfl, h⟩
      · exact ⟨n, Or.inr hn, hp⟩
    · rintro ⟨n, h | hn, hp⟩
      · exact Or.inl (h ▸ hp)
      · exact Or.inr ⟨n, hn, hp⟩

theorem allPointsList_perm {l1 l2 : List RNode} (h : List.Perm l1 l2) :
    List.Perm (allPointsList l1) (allPointsList l2) := by
  induction h with
  | nil => simp
  | cons x _ ih => simp only [allPointsList]; exact ih.append_left _
  | swap x y l =>
    simp only [allPointsList, ← List.append_assoc]
    exact List.Perm.append_right _ (List.perm_append_comm)
  | trans _ _ ih1 ih2 => exact ih1.trans ih2

theorem wfShapeList_iff {l : List RNode} : wfShapeList l ↔ ∀ n ∈ l, wfShape n := by
  induction l with
  | nil => simp [wfShapeList]
  | cons a l ih => simp [wfShapeList, ih]

theorem containedList_iff {l : List RNode} : containedList l ↔ ∀ n ∈ l, contained n := by
  induction l with
  | nil => simp [containedList]
  | cons a l ih => simp [containedList, ih]

theorem contained_def (n : RNode) :
    contained n ↔ (∀ p ∈ n.allPoints, inMBR n.mbr p) ∧ containedList n.child_nodes := by
  cases n with | mk m ps cs => simp [contained, RNode.mbr, RNode.child_nodes]

theorem wfShape_def (n : RNode) :
    wfShape n ↔ (n.child_nodes ≠ [] → n.data_points = []) ∧ wfShapeList n.child_nodes := by
  cases n with | mk m ps cs => simp [wfShape, RNode.child_nodes, RNode.data_points]

theorem foldl_min_le_init (l : List ℚ) (a : ℚ) : l.foldl min a ≤ a := by
  induction l generalizing a with
  | nil => simp
  | cons x xs ih => exact le_trans (ih (min a x)) (min_le_left a x)

theorem foldl_min_le_mem {l : List ℚ} {x : ℚ} (hx : x ∈ l) (a : ℚ) : l.foldl min a ≤ x := by
  induction l generalizing a with
  | nil => cases hx
  | cons y ys ih =>
    rcases List.mem_cons.1 hx with h | h
    · subst h
      exact le_trans (foldl_min_le_init ys (min a x)) (min_le_right a x)
    · exact ih h (min a y)

theorem le_foldl_max_init (l : List ℚ) (a : ℚ) : a ≤ l.foldl max a := by
  induction l generalizing a with
  | nil => simp
  | cons x xs ih => exact le_trans (le_max_left a x) (ih (max a x))

theorem le_foldl_max_mem {l : List ℚ} {x : ℚ} (hx : x ∈ l) (a : ℚ) : x ≤ l.foldl max a := by
  induction l generalizing a with
  | nil => cases hx
  | cons y ys ih =>
    rcases List.mem_cons.1 hx with h | h
    · subst h
      exact le_trans (le_max_right a x) (le_foldl_max_init ys (max a x))
    · exact ih h (max a y)

theorem listMin_le {l : List ℚ} {x : ℚ} (hx : x ∈ l) : listMin l ≤ x := by
  cases l with
  | nil => cases hx
  | cons a as =>
    rcases List.mem_cons.1 hx with h | h
    · subst h
      exact foldl_min_le_init as x
    · exact foldl_min_le_mem h a

theorem le_listMax {l : List ℚ} {x : ℚ} (hx : x ∈ l) : x ≤ listMax l := by
  cases l with
  | nil => cases hx
  | cons a as =>
    rcases List.mem_cons.1 hx with h | h
    · subst h
      exact le_foldl_max_init as x
    · exact le_foldl_max_mem h a

/-! ## Content-preservation and containment lemmas for the node operations -/

theorem update_mbr_data_points (n : RNode) : (update_mbr n).data_points = n.data_points := by
  cases n with | mk m ps cs =>
  by_cases h : cs.isEmpty <;>
    simp [update_mbr, RNode.child_nodes, RNode.data_points, h]

theorem update_mbr_child_nodes (n : RNode) : (update_mbr n).child_nodes = n.child_nodes := by
  cases n with | mk m ps cs =>
  by_cases h : cs.isEmpty <;>
    simp [update_mbr, RNode.child_nodes, h]

theorem update_mbr_allPoints (n : RNode) : (update_mbr n).allPoints = n.allPoints := by
  cases n with | mk m ps cs =>
  by_cases h : cs.isEmpty <;>
    simp [update_mbr, RNode.child_nodes, RNode.data_points, RNode.allPoints, h]

theorem wfShape_update_mbr {n : RNode} (h : wfShape n) : wfShape (update_mbr n) := by
  rw [wfShape_def] at h ⊢
  rw [update_mbr_data_points, update_mbr_child_nodes]
  exact h

theorem update_mbr_contained {n : RNode} (h1 : wfShape n) (h2 : containedList n.child_nodes) :
    contained (update_mbr n) := by
  rw [contained_def, update_mbr_child_nodes, update_mbr_allPoints]
  refine ⟨?_, h2⟩
  intro p hp
  cases n with | mk m ps cs =>
  by_cases hcs : cs = []
  · subst hcs
    have hp' : p ∈ ps := by simpa [RNode.allPoints, allPointsList] using hp
    have hx : p.x ∈ ps.map Point.x := List.mem_map_of_mem _ hp'
    have hy : p.y ∈ ps.map Point.y := List.mem_map_of_mem _ hp'
    simp only [update_mbr, RNode.child_nodes, RNode.data_points, List.isEmpty_nil, if_true,
      RNode.mbr]
    exact ⟨listMin_le hx, le_listMax hx, listMin_le hy, le_listMax hy⟩
  · have hps : ps = [] := by
      rw [wfShape_def] at h1
      exact h1.1 (by simpa [RNode.child_nodes] using hcs)
    subst hps
    have hp' : p ∈ allPointsList cs := by simpa [RNode.allPoints] using hp
    obtain ⟨c, hc, hpc⟩ := mem_allPointsList.1 hp'
    have hcont : contained c := (containedList_iff.1 (by simpa [RNode.child_nodes] using h2)) c hc
    have hbounds : inMBR c.mbr p := ((contained_def c).1 hcont).1 p hpc
    have hx1 : c.mbr.x1 ∈ cs.map (fun c => c.mbr.x1) ++ cs.map (fun c => c.mbr.x2) :=
      List.mem_append.2 (Or.inl (List.mem_map_of_mem _ hc))
    have hx2 : c.mbr.x2 ∈ cs.map (fun c => c.mbr.x1) ++ cs.map (fun c => c.mbr.x2) :=
      List.mem_append.2 (Or.inr (List.mem_map_of_mem _ hc))
    have hy1 : c.mbr.y1 ∈ cs.map (fun c => c.mbr.y1) ++ cs.map (fun c => c.mbr.y2) :=
      List.mem_append.2 (Or.inl (List.mem_map_of_mem _ hc))
    have hy2 : c.mbr.y2 ∈ cs.map (fun c => c.mbr.y1) ++ cs.map (fun c => c.mbr.y2) :=
      List.mem_append.2 (Or.inr (List.mem_map_of_mem _ hc))
    obtain ⟨b1, b2, b3, b4⟩ := hbounds
    have hemp : ¬ cs.isEmpty = true := by simpa [List.isEmpty_iff] using hcs
    simp only [update_mbr, RNode.child_nodes, RNode.data_points, hemp, if_false, RNode.mbr]
    exact ⟨le_trans (listMin_le hx1) b1, le_trans b2 (le_listMax hx2),
      le_trans (listMin_le hy1) b3, le_trans b4 (le_listMax hy2)⟩

theorem add_data_point_data_points (n : RNode) (p : Point) :
    (add_data_point n p).data_points = n.data_points ++ [p] := rfl

theorem add_data_point_child_nodes (n : RNode) (p : Point) :
    (add_data_point n p).child_nodes = n.child_nodes := rfl

theorem add_child_child_nodes (n c : RNode) :
    (add_child n c).child_nodes = n.child_nodes ++ [c] := rfl

theorem add_child_data_points (n c : RNode) :
    (add_child n c).data_points = n.data_points := rfl

/-! ## Size, child indexing, and insertion unfolding lemmas -/

theorem size_le_sizeList {c : RNode} {cs : List RNode} (hc : c ∈ cs) : c.size ≤ sizeList cs := by
  induction cs with
  | nil => cases hc
  | cons a l ih =>
    rcases List.mem_cons.1 hc with h | h
    · subst h
      simp only [sizeList]
      omega
    · have := ih h
      simp only [sizeList]
      omega

theorem size_lt_of_mem {c : RNode} {m : MBR} {ps : List Point} {cs : List RNode} (hc : c ∈ cs) :
    c.size < (RNode.mk m ps cs).size := by
  have := size_le_sizeList hc
  simp only [RNode.size]
  omega

theorem chooseIdxAux_lt (p : Point) (l : List RNode) (cur : ℚ) (best j N : Nat)
    (hb : best < N) (hj : j + l.length ≤ N) : chooseIdxAux p l cur best j < N := by
  induction l generalizing cur best j with
  | nil => simpa [chooseIdxAux] using hb
  | cons c cs ih =>
    simp only [chooseIdxAux]
    by_cases h : peri_increase c p < cur
    · simp only [h, if_true]
      refine ih _ j (j + 1) (by simp at hj; omega) (by simp at hj; omega)
    · simp only [h, if_false]
      refine ih _ best (j + 1) hb (by simp at hj; omega)

theorem chooseIdx_lt {cs : List RNode} (h : cs ≠ []) (p : Point) : chooseIdx cs p < cs.length := by
  cases cs with
  | nil => exact absurd rfl h
  | cons c rest =>
    simp only [chooseIdx, List.length_cons]
    exact chooseIdxAux_lt p rest _ 0 1 _ (by omega) (by omega)

theorem insertChild_eq {cs : List RNode} {i : Nat} (h : i < cs.length) (p : Point) :
    insertChild cs i p = insertNode (nthChild cs i) p := by
  induction cs generalizing i with
  | nil => simp at h
  | cons c rest ih =>
    cases i with
    | zero => simp [insertChild, nthChild]
    | succ j =>
      simp only [List.length_cons, Nat.succ_lt_succ_iff] at h
      simp only [insertChild, nthChild, List.getD_cons_succ]
      exact ih h

theorem nthChild_mem {cs : List RNode} {i : Nat} (h : i < cs.length) : nthChild cs i ∈ cs := by
  rw [nthChild, List.getD_eq_getElem?_getD, List.getElem?_eq_getElem h]
  simp

theorem allPointsList_eraseIdx {cs : List RNode} {i : Nat} (h : i < cs.length) :
    List.Perm (allPointsList cs) ((nthChild cs i).allPoints ++ allPointsList (cs.eraseIdx i)) := by
  induction cs generalizing i with
  | nil => simp at h
  | cons c rest ih =>
    cases i with
    | zero => simp [allPointsList, nthChild, List.eraseIdx]
    | succ j =>
      simp only [List.length_cons, Nat.succ_lt_succ_iff] at h
      have := ih (i := j) h
      simp only [nthChild] at this
      simp only [allPointsList, nthChild, List.getD_cons_succ, List.eraseIdx_cons_succ]
      refine (this.append_left c.allPoints).trans ?_
      rw [← List.append_assoc, ← List.append_assoc]
      exact List.Perm.append_right _ List.perm_append_comm

theorem allPointsList_set {cs : List RNode} {i : Nat} (h : i < cs.length) (x : RNode) :
    List.Perm (allPointsList (cs.set i x)) (x.allPoints ++ allPointsList (cs.eraseIdx i)) := by
  induction cs generalizing i with
  | nil => simp at h
  | cons c rest ih =>
    cases i with
    | zero => simp [allPointsList, List.set, List.eraseIdx]
    | succ j =>
      simp only [List.length_cons, Nat.succ_lt_succ_iff] at h
      have := ih (i := j) h
      simp only [List.set, List.eraseIdx_cons_succ, allPointsList]
      refine (this.append_left c.allPoints).trans ?_
      rw [← List.append_assoc, ← List.append_assoc]
      exact List.Perm.append_right _ List.perm_append_comm

theorem mem_of_mem_eraseIdx {c : RNode} {cs : List RNode} {i : Nat}
    (h : c ∈ cs.eraseIdx i) : c ∈ cs := by
  induction cs generalizing i with
  | nil => simp [List.eraseIdx] at h
  | cons a rest ih =>
    cases i with
    | zero =>
      simp only [List.eraseIdx] at h
      exact List.mem_cons_of_mem a h
    | succ j =>
      simp only [List.eraseIdx_cons_succ, List.mem_cons] at h
      rcases h with h | h
      · exact h ▸ List.mem_cons_self a rest
      · exact List.mem_cons_of_mem a (ih h)

/-! ## Lemmas about `pickBest` and the split candidate lists -/

theorem pickBest_foldl_mem (cs : List (RNode × RNode)) (c : RNode × RNode) :
    cs.foldl (fun best cand => if sumPeri cand < sumPeri best then cand else best) c ∈ c :: cs := by
  induction cs generalizing c with
  | nil => simp
  | cons d cs ih =>
    simp only [List.foldl_cons]
    by_cases h : sumPeri d < sumPeri c
    · simp only [h, if_true]
      have := ih d
      simp only [List.mem_cons] at this ⊢
      tauto
    · simp only [h, if_false]
      have := ih c
      simp only [List.mem_cons] at this ⊢
      tauto

theorem pickBest_mem {l : List (RNode × RNode)} (h : l ≠ []) : pickBest l ∈ l := by
  cases l with
  | nil => exact absurd rfl h
  | cons c cs => exact pickBest_foldl_mem cs c

theorem pickBest_foldl_min (cs : List (RNode × RNode)) (c : RNode × RNode) :
    sumPeri (cs.foldl (fun best cand => if sumPeri cand < sumPeri best then cand else best) c)
      ≤ sumPeri c ∧
    ∀ d ∈ cs,
      sumPeri (cs.foldl (fun best cand => if sumPeri cand < sumPeri best then cand else best) c)
        ≤ sumPeri d := by
  induction cs generalizing c with
  | nil => simp
  | cons d cs ih =>
    simp only [List.foldl_cons]
    by_cases h : sumPeri d < sumPeri c
    · simp only [h, if_true]
      obtain ⟨h1, h2⟩ := ih d
      refine ⟨le_trans h1 (le_of_lt h), ?_⟩
      intro e he
      rcases List.mem_cons.1 he with rfl | he
      · exact h1
      · exact h2 e he
    · simp only [h, if_false]
      obtain ⟨h1, h2⟩ := ih c
      refine ⟨h1, ?_⟩
      intro e he
      rcases List.mem_cons.1 he with rfl | he
      · exact le_trans h1 (not_lt.1 h)
      · exact h2 e he

theorem pickBest_min {l : List (RNode × RNode)} (h : l ≠ []) :
    ∀ c ∈ l, sumPeri (pickBest l) ≤ sumPeri c := by
  cases l with
  | nil => exact absurd rfl h
  | cons c cs =>
    intro d hd
    rcases List.mem_cons.1 hd with rfl | hd
    · exact (pickBest_foldl_min cs d).1
    · exact (pickBest_foldl_min cs c).2 d hd

theorem find?_min_eq_foldl (cs : List (RNode × RNode)) (c : RNode × RNode) :
    (c :: cs).find? (fun x => decide (sumPeri x = (cs.map sumPeri).foldl min (sumPeri c)))
      = some (cs.foldl
          (fun best cand => if sumPeri cand < sumPeri best then cand else best) c) := by
  induction cs generalizing c with
  | nil => simp
  | cons d cs ih =>
    simp only [List.map_cons, List.foldl_cons]
    by_cases hlt : sumPeri d < sumPeri c
    · have hmin : min (sumPeri c) (sumPeri d) = sumPeri d := min_eq_right (le_of_lt hlt)
      simp only [hmin]
      have hμc : ¬ (sumPeri c = (cs.map sumPeri).foldl min (sumPeri d)) := by
        have := foldl_min_le_init (cs.map sumPeri) (sumPeri d)
        intro hEq
        rw [← hEq] at this
        exact absurd (lt_of_lt_of_le hlt this) (lt_irrefl _)
      rw [List.find?_cons_of_neg _ (by simpa using hμc)]
      simp only [hlt, if_true]
      exact ih d
    · have hmin : min (sumPeri c) (sumPeri d) = sumPeri c := min_eq_left (not_lt.1 hlt)
      simp only [hmin]
      simp only [hlt, if_false]
      by_cases hc : sumPeri c = (cs.map sumPeri).foldl min (sumPeri c)
      · rw [List.find?_cons_of_pos _ (by simpa using hc)]
        have hih := ih c
        rw [List.find?_cons_of_pos _ (by simpa using hc)] at hih
        exact hih
      · have hd : ¬ (sumPeri d = (cs.map sumPeri).foldl min (sumPeri c)) := by
          intro hEq
          have h1 : (cs.map sumPeri).foldl min (sumPeri c) ≤ sumPeri c :=
            foldl_min_le_init _ _
          have h2 : sumPeri c ≤ sumPeri d := not_lt.1 hlt
          exact hc (le_antisymm (hEq ▸ h2) h1)
        rw [List.find?_cons_of_neg _ (by simpa using hc),
          List.find?_cons_of_neg _ (by simpa using hd)]
        have hih := ih c
        rw [List.find?_cons_of_neg _ (by simpa using hc)] at hih
        exact hih

theorem pickBest_eq_firstMin {l : List (RNode × RNode)} (h : l ≠ []) :
    firstMinCandidate l = some (pickBest l) := by
  cases l with
  | nil => exact absurd rfl h
  | cons c cs =>
    have : minSumPeri (c :: cs) = (cs.map sumPeri).foldl min (sumPeri c) := by
      simp [minSumPeri, listMin]
    rw [firstMinCandidate, this]
    exact find?_min_eq_foldl cs c

theorem mem_splitCandidatesLeaf {pts : List Point} {c : RNode × RNode}
    (hlen : 2 * minFill ≤ pts.length) (hc : c ∈ splitCandidatesLeaf pts) :
    ∃ divide i, List.Perm divide pts ∧ minFill ≤ i ∧ i + minFill ≤ pts.length ∧
      c = (update_mbr (.mk freshMBR (divide.take i) []),
           update_mbr (.mk freshMBR (divide.drop i) [])) := by
  simp only [splitCandidatesLeaf, List.mem_flatMap, List.mem_map, pyRange] at hc
  obtain ⟨divide, hdiv, i, hi, hci⟩ := hc
  have hperm : List.Perm divide pts := by
    simp only [List.mem_cons, List.mem_singleton, List.not_mem_nil, or_false] at hdiv
    rcases hdiv with rfl | rfl
    · exact sortByKey_perm _ _
    · exact sortByKey_perm _ _
  rw [List.mem_range'_1] at hi
  exact ⟨divide, i, hperm, hi.1, by omega, hci.symm⟩

theorem mem_splitCandidatesInternal {cs : List RNode} {c : RNode × RNode}
    (hlen : 2 * minFill ≤ cs.length) (hc : c ∈ splitCandidatesInternal cs) :
    ∃ divide i, List.Perm divide cs ∧ minFill ≤ i ∧ i + minFill ≤ cs.length ∧
      c = (update_mbr (.mk freshMBR [] (divide.take i)),
           update_mbr (.mk freshMBR [] (divide.drop i))) := by
  simp only [splitCandidatesInternal, List.mem_flatMap, List.mem_map, pyRange] at hc
  obtain ⟨divide, hdiv, i, hi, hci⟩ := hc
  have hperm : List.Perm divide cs := by
    simp only [List.mem_cons, List.mem_singleton, List.not_mem_nil, or_false] at hdiv
    rcases hdiv with rfl | rfl | rfl | rfl <;> exact sortByKey_perm _ _
  rw [List.mem_range'_1] at hi
  exact ⟨divide, i, hperm, hi.1, by omega, hci.symm⟩

theorem splitCandidatesLeaf_ne_nil {pts : List Point} (hlen : 2 * minFill ≤ pts.length) :
    splitCandidatesLeaf pts ≠ [] := by
  have hmem : minFill ∈ pyRange minFill (pts.length - minFill + 1) := by
    rw [pyRange, List.mem_range'_1]
    omega
  exact List.ne_nil_of_mem (by
    simp only [splitCandidatesLeaf, List.mem_flatMap]
    exact ⟨sortByKey Point.x pts, by simp, List.mem_map_of_mem _ hmem⟩)

theorem splitCandidatesInternal_ne_nil {cs : List RNode} (hlen : 2 * minFill ≤ cs.length) :
    splitCandidatesInternal cs ≠ [] := by
  have hmem : minFill ∈ pyRange minFill (cs.length - minFill + 1) := by
    rw [pyRange, List.mem_range'_1]
    omega
  exact List.ne_nil_of_mem (by
    simp only [splitCandidatesInternal, List.mem_flatMap]
    exact ⟨sortByKey (fun c => c.mbr.x1) cs, by simp, List.mem_map_of_mem _ hmem⟩)

theorem wfShape_leaf_group (l : List Point) : wfShape (.mk freshMBR l []) := by
  rw [wfShape_def]
  simp [RNode.child_nodes, wfShapeList]

theorem contained_leaf_group (l : List Point) : contained (update_mbr (.mk freshMBR l [])) := by
  refine update_mbr_contained (wfShape_leaf_group l) ?_
  simp [RNode.child_nodes, containedList]

theorem split_leaf_spec {m : MBR} {pts : List Point} (hlen : 2 * minFill ≤ pts.length) :
    wfShape (split (.mk m pts [])).1 ∧ wfShape (split (.mk m pts [])).2 ∧
    contained (split (.mk m pts [])).1 ∧ contained (split (.mk m pts [])).2 ∧
    List.Perm ((split (.mk m pts [])).1.allPoints ++ (split (.mk m pts [])).2.allPoints) pts := by
  have hcand : splitCandidates (.mk m pts []) = splitCandidatesLeaf pts := by
    simp [splitCandidates, RNode.child_nodes, RNode.data_points]
  have hmem : split (.mk m pts []) ∈ splitCandidatesLeaf pts := by
    rw [split, hcand]
    exact pickBest_mem (splitCandidatesLeaf_ne_nil hlen)
  obtain ⟨divide, i, hperm, hi1, hi2, heq⟩ := mem_splitCandidatesLeaf hlen hmem
  rw [heq]
  refine ⟨wfShape_update_mbr (wfShape_leaf_group _), wfShape_update_mbr (wfShape_leaf_group _),
    contained_leaf_group _, contained_leaf_group _, ?_⟩
  rw [update_mbr_allPoints, update_mbr_allPoints]
  have h1 : (RNode.mk freshMBR (divide.take i) []).allPoints = divide.take i := by
    simp [RNode.allPoints, allPointsList]
  have h2 : (RNode.mk freshMBR (divide.drop i) []).allPoints = divide.drop i := by
    simp [RNode.allPoints, allPointsList]
  rw [h1, h2, List.take_append_drop]
  exact hperm

theorem wfShape_internal_group {l : List RNode} (hwf : ∀ n ∈ l, wfShape n) :
    wfShape (.mk freshMBR [] l) := by
  rw [wfShape_def]
  exact ⟨fun _ => rfl, wfShapeList_iff.2 (by simpa [RNode.child_nodes] using hwf)⟩

theorem contained_internal_group {l : List RNode} (hwf : ∀ n ∈ l, wfShape n)
    (hcont : ∀ n ∈ l, contained n) : contained (update_mbr (.mk freshMBR [] l)) := by
  refine update_mbr_contained (wfShape_internal_group hwf) ?_
  exact containedList_iff.2 (by simpa [RNode.child_nodes] using hcont)

theorem split_internal_spec {m : MBR} {ps : List Point} {cs : List RNode}
    (hcs : cs ≠ []) (hlen : 2 * minFill ≤ cs.length)
    (hwf : ∀ n ∈ cs, wfShape n) (hcont : ∀ n ∈ cs, contained n) :
    wfShape (split (.mk m ps cs)).1 ∧ wfShape (split (.mk m ps cs)).2 ∧
    contained (split (.mk m ps cs)).1 ∧ contained (split (.mk m ps cs)).2 ∧
    List.Perm ((split (.mk m ps cs)).1.allPoints ++ (split (.mk m ps cs)).2.allPoints)
      (allPointsList cs) := by
  have hcand : splitCandidates (.mk m ps cs) = splitCandidatesInternal cs := by
    simp [splitCandidates, RNode.child_nodes, List.isEmpty_iff, hcs]
  have hmem : split (.mk m ps cs) ∈ splitCandidatesInternal cs := by
    rw [split, hcand]
    exact pickBest_mem (splitCandidatesInternal_ne_nil hlen)
  obtain ⟨divide, i, hperm, hi1, hi2, heq⟩ := mem_splitCandidatesInternal hlen hmem
  have htake : ∀ n ∈ divide.take i, n ∈ cs := fun n hn =>
    (hperm.mem_iff).1 (List.mem_of_mem_take hn)
  have hdrop : ∀ n ∈ divide.drop i, n ∈ cs := fun n hn =>
    (hperm.mem_iff).1 (List.mem_of_mem_drop hn)
  rw [heq]
  refine ⟨wfShape_update_mbr (wfShape_internal_group (fun n hn => hwf n (htake n hn))),
    wfShape_update_mbr (wfShape_internal_group (fun n hn => hwf n (hdrop n hn))),
    contained_internal_group (fun n hn => hwf n (htake n hn)) (fun n hn => hcont n (htake n hn)),
    contained_internal_group (fun n hn => hwf n (hdrop n hn)) (fun n hn => hcont n (hdrop n hn)),
    ?_⟩
  rw [update_mbr_allPoints, update_mbr_allPoints]
  have h1 : (RNode.mk freshMBR [] (divide.take i)).allPoints = allPointsList (divide.take i) := by
    simp [RNode.allPoints]
  have h2 : (RNode.mk freshMBR [] (divide.drop i)).allPoints = allPointsList (divide.drop i) := by
    simp [RNode.allPoints]
  rw [h1, h2, ← allPointsList_append, List.take_append_drop]
  exact allPointsList_perm hperm

theorem split_leaf_spec' {u : RNode} (hleaf : u.child_nodes = [])
    (hlen : 2 * minFill ≤ u.data_points.length) :
    wfShape (split u).1 ∧ wfShape (split u).2 ∧
    contained (split u).1 ∧ contained (split u).2 ∧
    List.Perm ((split u).1.allPoints ++ (split u).2.allPoints) u.data_points := by
  cases u with | mk m ps cs =>
  simp only [RNode.child_nodes] at hleaf
  subst hleaf
  exact split_leaf_spec (by simpa [RNode.data_points] using hlen)

theorem split_internal_spec' {u : RNode} (hcs : u.child_nodes ≠ [])
    (hlen : 2 * minFill ≤ u.child_nodes.length)
    (hwf : ∀ n ∈ u.child_nodes, wfShape n) (hcont : ∀ n ∈ u.child_nodes, contained n) :
    wfShape (split u).1 ∧ wfShape (split u).2 ∧
    contained (split u).1 ∧ contained (split u).2 ∧
    List.Perm ((split u).1.allPoints ++ (split u).2.allPoints)
      (allPointsList u.child_nodes) := by
  cases u with | mk m ps cs =>
  simp only [RNode.child_nodes] at hcs hlen hwf hcont ⊢
  exact split_internal_spec hcs hlen hwf hcont

theorem wfShape_children {m : MBR} {ps : List Point} {cs : List RNode}
    (h : wfShape (.mk m ps cs)) : ∀ c ∈ cs, wfShape c := by
  rw [wfShape_def] at h
  exact wfShapeList_iff.1 (by simpa [RNode.child_nodes] using h.2)

/-! ## The insertion invariant -/

theorem insertNode_spec : ∀ (N : Nat) (u : RNode), u.size ≤ N → ∀ (p : Point),
    wfShape u → containedList u.child_nodes →
    (∀ u', insertNode u p = Sum.inl u' →
      wfShape u' ∧ containedList u'.child_nodes ∧
      List.Perm u'.allPoints (u.allPoints ++ [p])) ∧
    (∀ a b, insertNode u p = Sum.inr (a, b) →
      wfShape a ∧ wfShape b ∧ contained a ∧ contained b ∧
      List.Perm (a.allPoints ++ b.allPoints) (u.allPoints ++ [p])) := by
  intro N
  induction N with
  | zero =>
    intro u hsize
    cases u with | mk m ps cs =>
    simp [RNode.size] at hsize
  | succ N ih =>
    intro u hsize p hwf hcont
    cases u with | mk m ps cs =>
    by_cases hcs : cs = []
    · -- leaf case: add the point, split on overflow
      subst hcs
      have hleafeq : insertNode (.mk m ps []) p =
          if (add_data_point (.mk m ps []) p).data_points.length > B then
            Sum.inr (split (add_data_point (.mk m ps []) p))
          else Sum.inl (add_data_point (.mk m ps []) p) := by
        simp [insertNode]
      have hdata : (add_data_point (.mk m ps []) p).data_points = ps ++ [p] := rfl
      by_cases hover : (add_data_point (.mk m ps []) p).data_points.length > B
      · -- overflow: the leaf splits
        rw [hleafeq, if_pos hover]
        have hlen : 2 * minFill ≤ (add_data_point (.mk m ps []) p).data_points.length := by
          rw [minFill_eq]
          have : B = 4 := rfl
          omega
        have hspec := split_leaf_spec' (u := add_data_point (.mk m ps []) p) rfl hlen
        constructor
        · intro u' heq
          simp at heq
        · intro a b heq
          rw [Sum.inr.injEq, Prod.mk.injEq] at heq
          obtain ⟨rfl, rfl⟩ := heq
          obtain ⟨h1, h2, h3, h4, h5⟩ := hspec
          refine ⟨h1, h2, h3, h4, ?_⟩
          rw [hdata] at h5
          refine h5.trans ?_
          simp [RNode.allPoints, allPointsList]
      · -- no overflow: plain append
        rw [hleafeq, if_neg hover]
        constructor
        · intro u' heq
          rw [Sum.inl.injEq] at heq
          subst heq
          refine ⟨?_, ?_, ?_⟩
          · rw [wfShape_def]
            simp [add_data_point, RNode.child_nodes, wfShapeList]
          · simp [add_data_point, RNode.child_nodes, containedList]
          · simp [add_data_point, RNode.allPoints, RNode.data_points, RNode.child_nodes,
              allPointsList]
        · intro a b heq
          simp at heq
    · -- internal case: recurse into the chosen subtree
      have hps : ps = [] := by
        rw [wfShape_def] at hwf
        exact hwf.1 (by simpa [RNode.child_nodes] using hcs)
      have hi : chooseIdx cs p < cs.length := chooseIdx_lt hcs p
      set i := chooseIdx cs p with hidef
      have hv : nthChild cs i ∈ cs := nthChild_mem hi
      have hvsize : (nthChild cs i).size ≤ N := by
        have : (nthChild cs i).size < (RNode.mk m ps cs).size := size_lt_of_mem hv
        omega
      have hvwf : wfShape (nthChild cs i) := wfShape_children hwf _ hv
      have hvcont : contained (nthChild cs i) :=
        containedList_iff.1 (by simpa [RNode.child_nodes] using hcont) _ hv
      have hvcontL : containedList (nthChild cs i).child_nodes := ((contained_def _).1 hvcont).2
      have IH := ih (nthChild cs i) hvsize p hvwf hvcontL
      have hne : ¬ cs.isEmpty = true := by simpa [List.isEmpty_iff] using hcs
      have hinteq : insertNode (.mk m ps cs) p =
          match insertChild cs i p with
          | Sum.inl v' => Sum.inl (.mk m ps (cs.set i (update_mbr v')))
          | Sum.inr (a, b) =>
            let u' := add_child (add_child (.mk m ps (cs.eraseIdx i)) a) b
            if u'.child_nodes.length > B then Sum.inr (split u') else Sum.inl u' := by
        simp [insertNode, hne, hidef]
      rw [insertChild_eq hi] at hinteq
      rcases hrec : insertNode (nthChild cs i) p with v' | ⟨a', b'⟩
      · -- the child did not split: replace it (update_mbr'd), keep u's MBR
        rw [hrec] at hinteq
        obtain ⟨hwf', hcont', hperm'⟩ := IH.1 v' hrec
        constructor
        · intro u' heq
          rw [hinteq, Sum.inl.injEq] at heq
          subst heq
          have hmemset : ∀ c ∈ cs.set i (update_mbr v'), wfShape c ∧ contained c := by
            intro c hcmem
            rcases List.mem_or_eq_of_mem_set hcmem with hcmem | rfl
            · exact ⟨wfShape_children hwf _ hcmem,
                containedList_iff.1 (by simpa [RNode.child_nodes] using hcont) _ hcmem⟩
            · exact ⟨wfShape_update_mbr hwf', update_mbr_contained hwf' hcont'⟩
          refine ⟨?_, ?_, ?_⟩
          · rw [wfShape_def]
            constructor
            · intro _
              simpa [RNode.data_points] using hps
            · rw [RNode.child_nodes]
              exact wfShapeList_iff.2 (fun c hc => (hmemset c hc).1)
          · rw [RNode.child_nodes]
            exact containedList_iff.2 (fun c hc => (hmemset c hc).2)
          · simp only [RNode.allPoints, hps, List.nil_append]
            have h1 := allPointsList_set hi (update_mbr v')
            rw [update_mbr_allPoints] at h1
            have h2 := allPointsList_eraseIdx hi
            refine h1.trans ?_
            have h3 : List.Perm (v'.allPoints ++ allPointsList (cs.eraseIdx i))
                ((nthChild cs i).allPoints ++ [p] ++ allPointsList (cs.eraseIdx i)) :=
              List.Perm.append_right _ hperm'
            refine h3.trans ?_
            have h4 : List.Perm
                ((nthChild cs i).allPoints ++ [p] ++ allPointsList (cs.eraseIdx i))
                ((nthChild cs i).allPoints ++ allPointsList (cs.eraseIdx i) ++ [p]) := by
              rw [List.append_assoc, List.append_assoc]
              exact List.Perm.append_left _ List.perm_append_comm
            refine h4.trans ?_
            exact List.Perm.append_right _ h2.symm
        · intro a b heq
          rw [hinteq] at heq
          simp at heq
      · -- the child split: attach both products, split u itself on overflow
        rw [hrec] at hinteq
        obtain ⟨hwfa, hwfb, hconta, hcontb, hpermab⟩ := IH.2 a' b' hrec
        have hchild : (add_child (add_child (.mk m ps (cs.eraseIdx i)) a') b').child_nodes
            = (cs.eraseIdx i ++ [a']) ++ [b'] := rfl
        have hdata : (add_child (add_child (.mk m ps (cs.eraseIdx i)) a') b').data_points
            = ps := rfl
        have hmem'' : ∀ c ∈ (cs.eraseIdx i ++ [a']) ++ [b'], wfShape c ∧ contained c := by
          intro c hcmem
          simp only [List.mem_append, List.mem_singleton] at hcmem
          rcases hcmem with (hcmem | rfl) | rfl
          · have := mem_of_mem_eraseIdx hcmem
            exact ⟨wfShape_children hwf _ this,
              containedList_iff.1 (by simpa [RNode.child_nodes] using hcont) _ this⟩
          · exact ⟨hwfa, hconta⟩
          · exact ⟨hwfb, hcontb⟩
        have hpermpts : List.Perm
            (allPointsList ((cs.eraseIdx i ++ [a']) ++ [b']))
            (allPointsList cs ++ [p]) := by
          rw [allPointsList_append, allPointsList_append]
          have hsingle : ∀ x : RNode, allPointsList [x] = x.allPoints := by
            intro x
            simp [allPointsList]
          rw [hsingle, hsingle]
          rw [List.append_assoc]
          have h1 : List.Perm (a'.allPoints ++ b'.allPoints)
              ((nthChild cs i).allPoints ++ [p]) := hpermab
          have h2 : List.Perm
              (allPointsList (cs.eraseIdx i) ++ (a'.allPoints ++ b'.allPoints))
              (allPointsList (cs.eraseIdx i) ++ ((nthChild cs i).allPoints ++ [p])) :=
            h1.append_left _
          refine h2.trans ?_
          rw [← List.append_assoc]
          have h3 : List.Perm
              (allPointsList (cs.eraseIdx i) ++ (nthChild cs i).allPoints)
              ((nthChild cs i).allPoints ++ allPointsList (cs.eraseIdx i)) :=
            List.perm_append_comm
          refine (List.Perm.append_right _ h3).trans ?_
          exact List.Perm.append_right _ (allPointsList_eraseIdx hi).symm
        by_cases hover :
            (add_child (add_child (.mk m ps (cs.eraseIdx i)) a') b').child_nodes.length > B
        · rw [hinteq]
          simp only [hover, if_true]
          have hlen'' : 2 * minFill ≤
              (add_child (add_child (.mk m ps (cs.eraseIdx i)) a') b').child_nodes.length := by
            rw [minFill_eq]
            have : B = 4 := rfl
            omega
          have hne'' : (add_child (add_child (.mk m ps (cs.eraseIdx i)) a') b').child_nodes
              ≠ [] := by
            rw [hchild]
            simp
          have hspec := split_internal_spec' hne'' hlen''
            (fun n hn => (hmem'' n (by rwa [hchild] at hn)).1)
            (fun n hn => (hmem'' n (by rwa [hchild] at hn)).2)
          constructor
          · intro u' heq
            simp at heq
          · intro a b heq
            rw [Sum.inr.injEq, Prod.mk.injEq] at heq
            obtain ⟨rfl, rfl⟩ := heq
            obtain ⟨h1, h2, h3, h4, h5⟩ := hspec
            refine ⟨h1, h2, h3, h4, ?_⟩
            rw [hchild] at h5
            refine h5.trans ?_
            simp only [RNode.allPoints, hps, List.nil_append]
            exact hpermpts
        · rw [hinteq]
          simp only [hover, if_false]
          constructor
          · intro u' heq
            rw [Sum.inl.injEq] at heq
            subst heq
            refine ⟨?_, ?_, ?_⟩
            · rw [wfShape_def, hchild, hdata]
              exact ⟨fun _ => hps, wfShapeList_iff.2 (fun c hc => (hmem'' c hc).1)⟩
            · rw [hchild]
              exact containedList_iff.2 (fun c hc => (hmem'' c hc).2)
            · have hAP : (add_child (add_child (.mk m ps (cs.eraseIdx i)) a') b').allPoints
                  = ps ++ allPointsList ((cs.eraseIdx i ++ [a']) ++ [b']) := by
                cases h : add_child (add_child (.mk m ps (cs.eraseIdx i)) a') b' with
                | mk m2 ps2 cs2 =>
                  have e1 : ps2 = ps := by
                    have := hdata
                    rw [h] at this
                    simpa [RNode.data_points] using this
                  have e2 : cs2 = (cs.eraseIdx i ++ [a']) ++ [b'] := by
                    have := hchild
                    rw [h] at this
                    simpa [RNode.child_nodes] using this
                  rw [RNode.allPoints, e1, e2]
              rw [hAP, hps]
              simp only [List.nil_append, RNode.allPoints]
              exact hpermpts
          · intro a b heq
            simp at heq

theorem wfShape_freshNode : wfShape freshNode := by
  rw [wfShape_def]
  simp [freshNode, RNode.child_nodes, wfShapeList]

theorem rtree_insert_spec (root : RNode) (p : Point)
    (hwf : wfShape root) (hcont : containedList root.child_nodes) :
    wfShape (rtree_insert root p) ∧ containedList (rtree_insert root p).child_nodes ∧
    List.Perm (rtree_insert root p).allPoints (root.allPoints ++ [p]) := by
  have hspec := insertNode_spec root.size root (le_refl _) p hwf hcont
  rcases hrec : insertNode root p with r | ⟨a, b⟩
  · obtain ⟨h1, h2, h3⟩ := hspec.1 r hrec
    rw [rtree_insert, hrec]
    exact ⟨h1, h2, h3⟩
  · obtain ⟨hwfa, hwfb, hconta, hcontb, hperm⟩ := hspec.2 a b hrec
    rw [rtree_insert, hrec]
    have hch : (add_child (add_child freshNode a) b).child_nodes = [a, b] := rfl
    have hda : (add_child (add_child freshNode a) b).data_points = [] := rfl
    refine ⟨?_, ?_, ?_⟩
    · refine wfShape_update_mbr ?_
      rw [wfShape_def, hch, hda]
      refine ⟨fun _ => rfl, wfShapeList_iff.2 ?_⟩
      intro c hc
      rcases List.mem_cons.1 hc with rfl | hc
      · exact hwfa
      · rcases List.mem_singleton.1 hc with rfl
        exact hwfb
    · rw [update_mbr_child_nodes, hch]
      refine containedList_iff.2 ?_
      intro c hc
      rcases List.mem_cons.1 hc with rfl | hc
      · exact hconta
      · rcases List.mem_singleton.1 hc with rfl
        exact hcontb
    · rw [update_mbr_allPoints]
      have hAP : (add_child (add_child freshNode a) b).allPoints
          = a.allPoints ++ b.allPoints := by
        cases h : add_child (add_child freshNode a) b with
        | mk m2 ps2 cs2 =>
          have e1 : ps2 = [] := by
            have := hda
            rw [h] at this
            simpa [RNode.data_points] using this
          have e2 : cs2 = [a, b] := by
            have := hch
            rw [h] at this
            simpa [RNode.child_nodes] using this
          rw [RNode.allPoints, e1, e2]
          simp [allPointsList]
      rw [hAP]
      exact hperm

theorem buildTree_aux : ∀ (l : List Point) (t : RNode), wfShape t → containedList t.child_nodes →
    wfShape (l.foldl rtree_insert t) ∧ containedList (l.foldl rtree_insert t).child_nodes ∧
    List.Perm (l.foldl rtree_insert t).allPoints (t.allPoints ++ l) := by
  intro l
  induction l with
  | nil =>
    intro t h1 h2
    exact ⟨h1, h2, by simp⟩
  | cons p l ihl =>
    intro t h1 h2
    obtain ⟨g1, g2, g3⟩ := rtree_insert_spec t p h1 h2
    obtain ⟨k1, k2, k3⟩ := ihl (rtree_insert t p) g1 g2
    refine ⟨k1, k2, ?_⟩
    simp only [List.foldl_cons]
    refine k3.trans ?_
    have := g3.append_right l
    refine this.trans ?_
    rw [List.append_assoc]
    simp

/-- The three invariants of a tree produced by `create_rtree.main`: shape
well-formedness, containment for every node other than the root, and that
it stores exactly the inserted points. -/
theorem buildTree_spec (ps : List Point) :
    wfShape (buildTree ps) ∧ containedList (buildTree ps).child_nodes ∧
    List.Perm (buildTree ps).allPoints ps := by
  have := buildTree_aux ps freshNode wfShape_freshNode (by simp [freshNode, RNode.child_nodes, containedList])
  simpa [buildTree, freshNode, RNode.allPoints, allPointsList] using this

/-! ## Nearest-neighbor search correctness -/

theorem sizeList_append (l1 l2 : List RNode) :
    sizeList (l1 ++ l2) = sizeList l1 + sizeList l2 := by
  induction l1 with
  | nil => simp [sizeList]
  | cons a l ih => simp [sizeList, ih]; omega

theorem sizeList_filter_le (f : RNode → Bool) (l : List RNode) :
    sizeList (l.filter f) ≤ sizeList l := by
  induction l with
  | nil => simp [sizeList]
  | cons a l ih =>
    by_cases h : f a
    · simp only [List.filter_cons, h, if_true, sizeList]
      omega
    · simp only [List.filter_cons, h, Bool.false_eq_true, if_false, sizeList]
      omega

theorem size_pos (n : RNode) : 0 < n.size := by
  cases n with | mk m ps cs => simp [RNode.size]

/-- Admissibility of the squared MBR lower bound: it never exceeds the
squared distance from the query to any point inside the rectangle. -/
theorem mbrMinDistSq_le_distSq {mr : MBR} {r q : Point} (h : inMBR mr r) :
    mbrMinDistSq mr q ≤ distSq r q := by
  obtain ⟨hx1, hx2, hy1, hy2⟩ := h
  have hdx0 : 0 ≤ mbrDx mr q := le_max_of_le_left (le_max_right _ _)
  have hdy0 : 0 ≤ mbrDy mr q := le_max_of_le_left (le_max_right _ _)
  have hdx : mbrDx mr q ≤ |r.x - q.x| := by
    refine max_le (max_le ?_ (abs_nonneg _)) ?_
    · exact le_trans (by linarith) (le_abs_self _)
    · exact le_trans (by linarith) (neg_le_abs _)
  have hdy : mbrDy mr q ≤ |r.y - q.y| := by
    refine max_le (max_le ?_ (abs_nonneg _)) ?_
    · exact le_trans (by linarith) (le_abs_self _)
    · exact le_trans (by linarith) (neg_le_abs _)
  have hx : mbrDx mr q ^ 2 ≤ (q.x - r.x) ^ 2 := by
    have := pow_le_pow_left₀ hdx0 hdx 2
    rwa [sq_abs, show (r.x - q.x) ^ 2 = (q.x - r.x) ^ 2 by ring] at this
  have hy : mbrDy mr q ^ 2 ≤ (q.y - r.y) ^ 2 := by
    have := pow_le_pow_left₀ hdy0 hdy 2
    rwa [sq_abs, show (r.y - q.y) ^ 2 = (q.y - r.y) ^ 2 by ring] at this
  rw [mbrMinDistSq, distSq]
  linarith

theorem scanLeaf_spec (q : Point) (pts : List Point) (best : Option (ℚ × Point))
    (hwfb : ∀ d pt, best = some (d, pt) → d = distSq pt q) :
    (∀ d' pt', scanLeaf q pts best = some (d', pt') → d' = distSq pt' q) ∧
    (∀ d pt, best = some (d, pt) →
      ∃ d' pt', scanLeaf q pts best = some (d', pt') ∧ d' ≤ d) ∧
    (∀ r ∈ pts, ∃ d' pt', scanLeaf q pts best = some (d', pt') ∧ d' ≤ distSq r q) ∧
    (∀ d' pt', scanLeaf q pts best = some (d', pt') →
      pt' ∈ pts ∨ ∃ d, best = some (d, pt')) := by
  induction pts generalizing best with
  | nil =>
    refine ⟨fun d' pt' h => hwfb d' pt' h, ?_, by simp, ?_⟩
    · intro d pt h
      exact ⟨d, pt, h, le_refl d⟩
    · intro d' pt' h
      exact Or.inr ⟨d', h ▸ rfl⟩
  | cons r rest ih =>
    have hstep : scanLeaf q (r :: rest) best =
        scanLeaf q rest
          (if beatsBest (distSq r q) best then some (distSq r q, r) else best) := by
      simp [scanLeaf]
    by_cases hb : beatsBest (distSq r q) best
    · rw [hstep, if_pos hb]
      have hwfb' : ∀ d pt, (some (distSq r q, r) : Option (ℚ × Point)) = some (d, pt) →
          d = distSq pt q := by
        intro d pt h
        rw [Option.some.injEq, Prod.mk.injEq] at h
        obtain ⟨rfl, rfl⟩ := h
        rfl
      obtain ⟨i1, i2, i3, i4⟩ := ih (some (distSq r q, r)) hwfb'
      refine ⟨i1, ?_, ?_, ?_⟩
      · intro d pt hbest
        obtain ⟨d', pt', hres, hle⟩ := i2 _ _ rfl
        refine ⟨d', pt', hres, hle.trans ?_⟩
        rw [hbest] at hb
        simp only [beatsBest, decide_eq_true_eq] at hb
        exact le_of_lt hb
      · intro s hs
        rcases List.mem_cons.1 hs with rfl | hs
        · obtain ⟨d', pt', hres, hle⟩ := i2 _ _ rfl
          exact ⟨d', pt', hres, hle⟩
        · exact i3 s hs
      · intro d' pt' hres
        rcases i4 d' pt' hres with h | ⟨d, hd⟩
        · exact Or.inl (List.mem_cons_of_mem r h)
        · rw [Option.some.injEq, Prod.mk.injEq] at hd
          exact Or.inl (hd.2 ▸ List.mem_cons_self r rest)
    · rw [hstep, if_neg hb]
      obtain ⟨i1, i2, i3, i4⟩ := ih best hwfb
      have hbestne : ∃ bd bpt, best = some (bd, bpt) ∧ bd ≤ distSq r q := by
        cases best with
        | none => simp [beatsBest] at hb
        | some v =>
          refine ⟨v.1, v.2, rfl, ?_⟩
          simp only [beatsBest, decide_eq_true_eq] at hb
          exact not_lt.1 hb
      refine ⟨i1, i2, ?_, ?_⟩
      · intro s hs
        rcases List.mem_cons.1 hs with rfl | hs
        · obtain ⟨bd, bpt, hbest, hble⟩ := hbestne
          obtain ⟨d', pt', hres, hle⟩ := i2 _ _ hbest
          exact ⟨d', pt', hres, hle.trans hble⟩
        · exact i3 s hs
      · intro d' pt' hres
        rcases i4 d' pt' hres with h | h
        · exact Or.inl (List.mem_cons_of_mem r h)
        · exact Or.inr h

theorem allPoints_leaf {n : RNode} (h : n.child_nodes = []) : n.allPoints = n.data_points := by
  cases n with | mk m ps cs =>
  simp only [RNode.child_nodes] at h
  subst h
  simp [RNode.allPoints, RNode.data_points, allPointsList]

theorem allPoints_internal {n : RNode} (hwf : wfShape n) (h : n.child_nodes ≠ []) :
    n.allPoints = allPointsList n.child_nodes := by
  have hps : n.data_points = [] := ((wfShape_def n).1 hwf).1 h
  cases n with | mk m ps cs =>
  simp only [RNode.data_points] at hps
  subst hps
  simp [RNode.allPoints, RNode.child_nodes]

theorem sizeList_eq_nil {L : List RNode} (h : sizeList L = 0) : L = [] := by
  cases L with
  | nil => rfl
  | cons n rest =>
    have := size_pos n
    simp only [sizeList] at h
    omega

theorem nnLoop_spec : ∀ (M : Nat) (L : List RNode), sizeList L ≤ M →
    ∀ (q : Point) (best : Option (ℚ × Point)),
    (∀ n ∈ L, wfShape n ∧ containedList n.child_nodes) →
    (∀ d pt, best = some (d, pt) → d = distSq pt q) →
    (∀ d' pt', nnLoop q L best = some (d', pt') → d' = distSq pt' q) ∧
    (∀ d pt, best = some (d, pt) → ∃ d' pt', nnLoop q L best = some (d', pt') ∧ d' ≤ d) ∧
    (∀ r ∈ allPointsList L, ∃ d' pt', nnLoop q L best = some (d', pt') ∧ d' ≤ distSq r q) ∧
    (∀ d' pt', nnLoop q L best = some (d', pt') →
      pt' ∈ allPointsList L ∨ ∃ d, best = some (d, pt')) := by
  intro M
  induction M with
  | zero =>
    intro L hsize q best hQ hwfb
    have hL : L = [] := sizeList_eq_nil (by omega)
    subst hL
    simp only [nnLoop, allPointsList]
    refine ⟨hwfb, ?_, by simp, ?_⟩
    · intro d pt h
      exact ⟨d, pt, h, le_refl d⟩
    · intro d' pt' h
      exact Or.inr ⟨d', h ▸ rfl⟩
  | succ M ih =>
    intro L hsize q best hQ hwfb
    cases L with
    | nil =>
      simp only [nnLoop, allPointsList]
      refine ⟨hwfb, ?_, by simp, ?_⟩
      · intro d pt h
        exact ⟨d, pt, h, le_refl d⟩
      · intro d' pt' h
        exact Or.inr ⟨d', h ▸ rfl⟩
    | cons n rest =>
      have hsn := size_pos n
      have hsplit : sizeList (n :: rest) = n.size + sizeList rest := rfl
      by_cases hleaf : n.child_nodes.isEmpty
      · -- leaf node: scan its points
        have heq : nnLoop q (n :: rest) best =
            nnLoop q rest (scanLeaf q n.data_points best) := by
          simp only [nnLoop, hleaf, if_true]
        have hchn : n.child_nodes = [] := List.isEmpty_iff.1 hleaf
        obtain ⟨s1, s2, s3, s4⟩ := scanLeaf_spec q n.data_points best hwfb
        have hrest : sizeList rest ≤ M := by omega
        obtain ⟨i1, i2, i3, i4⟩ := ih rest hrest q (scanLeaf q n.data_points best)
          (fun x hx => hQ x (List.mem_cons_of_mem n hx)) s1
        rw [heq]
        have hAP : allPointsList (n :: rest) = n.data_points ++ allPointsList rest := by
          simp only [allPointsList, allPoints_leaf hchn]
        refine ⟨i1, ?_, ?_, ?_⟩
        · intro d pt hbest
          obtain ⟨d2, pt2, hb2, hle2⟩ := s2 d pt hbest
          obtain ⟨d', pt', hres, hle'⟩ := i2 d2 pt2 hb2
          exact ⟨d', pt', hres, hle'.trans hle2⟩
        · intro r hr
          rw [hAP, List.mem_append] at hr
          rcases hr with hr | hr
          · obtain ⟨d2, pt2, hb2, hle2⟩ := s3 r hr
            obtain ⟨d', pt', hres, hle'⟩ := i2 d2 pt2 hb2
            exact ⟨d', pt', hres, hle'.trans hle2⟩
          · exact i3 r hr
        · intro d' pt' hres
          rcases i4 d' pt' hres with h | ⟨d, hd⟩
          · refine Or.inl ?_
            rw [hAP, List.mem_append]
            exact Or.inr h
          · rcases s4 d pt' hd with h | h
            · refine Or.inl ?_
              rw [hAP, List.mem_append]
              exact Or.inl h
            · exact Or.inr h
      · -- internal node: enqueue the children that beat the current best
        have heq : nnLoop q (n :: rest) best = nnLoop q
            (rest ++ n.child_nodes.filter
              (fun c => beatsBest (mbrMinDistSq c.mbr q) best)) best := by
          simp only [nnLoop, hleaf]
          simp
        have hchn : n.child_nodes ≠ [] := by
          simpa [List.isEmpty_iff] using hleaf
        have hwfn := (hQ n (List.mem_cons_self n rest)).1
        have hcontn := (hQ n (List.mem_cons_self n rest)).2
        have hQ' : ∀ x ∈ rest ++ n.child_nodes.filter
            (fun c => beatsBest (mbrMinDistSq c.mbr q) best),
            wfShape x ∧ containedList x.child_nodes := by
          intro x hx
          rcases List.mem_append.1 hx with hx | hx
          · exact hQ x (List.mem_cons_of_mem n hx)
          · have hmem := (List.mem_filter.1 hx).1
            have hwfx : wfShape x := by
              rw [wfShape_def] at hwfn
              exact wfShapeList_iff.1 hwfn.2 x hmem
            have hcontx : contained x := containedList_iff.1 hcontn x hmem
            exact ⟨hwfx, ((contained_def x).1 hcontx).2⟩
        have hq'size : sizeList (rest ++ n.child_nodes.filter
            (fun c => beatsBest (mbrMinDistSq c.mbr q) best)) ≤ M := by
          rw [sizeList_append]
          have h1 := sizeList_filter_le
            (fun c => beatsBest (mbrMinDistSq c.mbr q) best) n.child_nodes
          have h2 : n.size = 1 + sizeList n.child_nodes := by
            cases n with | mk m2 ps2 cs2 => simp [RNode.size, RNode.child_nodes]
          omega
        obtain ⟨i1, i2, i3, i4⟩ := ih _ hq'size q best hQ' hwfb
        rw [heq]
        have hAPn : n.allPoints = allPointsList n.child_nodes := allPoints_internal hwfn hchn
        have hAP : allPointsList (n :: rest)
            = allPointsList n.child_nodes ++ allPointsList rest := by
          simp only [allPointsList, hAPn]
        refine ⟨i1, i2, ?_, ?_⟩
        · intro r hr
          rw [hAP, List.mem_append] at hr
          rcases hr with hr | hr
          · obtain ⟨c, hc, hrc⟩ := mem_allPointsList.1 hr
            by_cases hf : beatsBest (mbrMinDistSq c.mbr q) best
            · have hcq : c ∈ rest ++ n.child_nodes.filter
                  (fun c => beatsBest (mbrMinDistSq c.mbr q) best) :=
                List.mem_append.2 (Or.inr (List.mem_filter.2 ⟨hc, hf⟩))
              refine i3 r ?_
              rw [allPointsList_append]
              exact List.mem_append.2 (Or.inr (mem_allPointsList.2 ⟨c, List.mem_filter.2 ⟨hc, hf⟩, hrc⟩))
            · -- pruned child: its lower bound already exceeds the current best
              have hbest : ∃ bd bpt, best = some (bd, bpt) ∧ bd ≤ mbrMinDistSq c.mbr q := by
                cases hb : best with
                | none => rw [hb] at hf; simp [beatsBest] at hf
                | some v =>
                  refine ⟨v.1, v.2, rfl, ?_⟩
                  rw [hb] at hf
                  simp only [beatsBest, decide_eq_true_eq] at hf
                  exact not_lt.1 hf
              obtain ⟨bd, bpt, hb, hble⟩ := hbest
              have hccont : contained c := containedList_iff.1 hcontn c hc
              have hin : inMBR c.mbr r := ((contained_def c).1 hccont).1 r hrc
              have hadm := mbrMinDistSq_le_distSq (q := q) hin
              obtain ⟨d', pt', hres, hle'⟩ := i2 bd bpt hb
              exact ⟨d', pt', hres, hle'.trans (hble.trans hadm)⟩
          · refine i3 r ?_
            rw [allPointsList_append]
            exact List.mem_append.2 (Or.inl hr)
        · intro d' pt' hres
          rcases i4 d' pt' hres with h | h
          · rw [allPointsList_append, List.mem_append] at h
            rcases h with h | h
            · refine Or.inl ?_
              rw [hAP, List.mem_append]
              exact Or.inr h
            · obtain ⟨c, hc, hptc⟩ := mem_allPointsList.1 h
              have hcmem := (List.mem_filter.1 hc).1
              refine Or.inl ?_
              rw [hAP, List.mem_append]
              exact Or.inl (mem_allPointsList.2 ⟨c, hcmem, hptc⟩)
          · exact Or.inr h

/-- Combined correctness of `rtree_nearest_neighbor_search` over a tree
built by repeated insertion: `none` exactly on an empty point set, and any
returned point is an inserted point of (squared-)distance no larger than
that of every inserted point. -/
theorem nn_search_spec (ps : List Point) (q : Point) :
    (rtree_nearest_neighbor_search (buildTree ps) q = none ↔ ps = []) ∧
    (∀ pt, rtree_nearest_neighbor_search (buildTree ps) q = some pt →
      pt ∈ ps ∧ ∀ r ∈ ps, distSq pt q ≤ distSq r q) := by
  obtain ⟨hwf, hcont, hperm⟩ := buildTree_spec ps
  have hQ : ∀ n ∈ [buildTree ps], wfShape n ∧ containedList n.child_nodes := by
    intro n hn
    rcases List.mem_singleton.1 hn with rfl
    exact ⟨hwf, hcont⟩
  have hwfb : ∀ d pt, (none : Option (ℚ × Point)) = some (d, pt) → d = distSq pt q := by
    intro d pt h
    cases h
  obtain ⟨n1, n2, n3, n4⟩ := nnLoop_spec (sizeList [buildTree ps]) [buildTree ps]
    (le_refl _) q none hQ hwfb
  have hAP : allPointsList [buildTree ps] = (buildTree ps).allPoints := by
    simp [allPointsList]
  have hres : ∀ pt, rtree_nearest_neighbor_search (buildTree ps) q = some pt →
      pt ∈ ps ∧ ∀ r ∈ ps, distSq pt q ≤ distSq r q := by
    intro pt hpt
    rw [rtree_nearest_neighbor_search] at hpt
    rcases hL : nnLoop q [buildTree ps] none with _ | v
    · rw [hL] at hpt
      simp at hpt
    · rw [hL] at hpt
      obtain ⟨d0, pt0⟩ := v
      have hpt' : pt = pt0 := by
        have : pt0 = pt := by simpa using hpt
        exact this.symm
      subst hpt'
      constructor
      · rcases n4 d0 pt hL with h | ⟨d, hd⟩
        · rw [hAP] at h
          exact hperm.mem_iff.1 h
        · cases hd
      · intro r hr
        have hrt : r ∈ allPointsList [buildTree ps] := by
          rw [hAP]
          exact hperm.mem_iff.2 hr
        obtain ⟨d', pt', hres', hle'⟩ := n3 r hrt
        rw [hL, Option.some.injEq, Prod.mk.injEq] at hres'
        obtain ⟨rfl, rfl⟩ := hres'
        have hd0 : d0 = distSq pt q := n1 d0 pt hL
        rw [← hd0]
        exact hle'
  constructor
  · constructor
    · intro hnone
      by_contra hne
      obtain ⟨r, hr⟩ := List.exists_mem_of_ne_nil ps hne
      have hrt : r ∈ allPointsList [buildTree ps] := by
        rw [hAP]
        exact hperm.mem_iff.2 hr
      obtain ⟨d', pt', hres', _⟩ := n3 r hrt
      rw [rtree_nearest_neighbor_search, hres'] at hnone
      simp at hnone
    · intro hnil
      subst hnil
      rcases hL : nnLoop q [buildTree []] none with _ | v
      · rw [rtree_nearest_neighbor_search, hL]
        rfl
      · obtain ⟨d0, pt0⟩ := v
        rcases n4 d0 pt0 hL with h | ⟨d, hd⟩
        · rw [hAP] at h
          have := hperm.mem_iff.1 h
          simp at this
        · cases hd
  · exact hres

/-! ## BBS skyline search correctness -/

theorem dominates_irrefl (a : Point) : ¬ dominates a a := by
  rintro ⟨h1, h2, h3 | h3⟩ <;> exact absurd h3 (lt_irrefl _)

theorem dominates_trans {a b c : Point} (h1 : dominates a b) (h2 : dominates b c) :
    dominates a c := by
  obtain ⟨hx1, hy1, hs1⟩ := h1
  obtain ⟨hx2, hy2, hs2⟩ := h2
  refine ⟨le_trans hx1 hx2, le_trans hy2 hy1, ?_⟩
  rcases hs1 with h | h
  · exact Or.inl (lt_of_lt_of_le h hx2)
  · exact Or.inr (lt_of_le_of_lt hy2 h)

theorem dominates_asymm {a b : Point} (h1 : dominates a b) : ¬ dominates b a := by
  intro h2
  obtain ⟨hx1, hy1, hs1⟩ := h1
  obtain ⟨hx2, hy2, hs2⟩ := h2
  rcases hs1 with h | h
  · exact absurd (lt_of_lt_of_le h hx2) (lt_irrefl _)
  · exact absurd (lt_of_le_of_lt hy2 h) (lt_irrefl _)

theorem processPoint_spec (sky : List Point) (p : Point)
    (hA : ∀ a ∈ sky, ∀ b ∈ sky, ¬ dominates a b) :
    (∀ s ∈ processPoint sky p, s ∈ sky ∨ s = p) ∧
    (∀ a ∈ processPoint sky p, ∀ b ∈ processPoint sky p, ¬ dominates a b) ∧
    (∀ r, covers sky r → covers (processPoint sky p) r) ∧
    covers (processPoint sky p) p := by
  by_cases hdom : sky.any (fun s => decide (dominates s p))
  · -- some skyline member dominates p: skyline unchanged, p is covered
    have heq : processPoint sky p = sky := by
      rw [processPoint, if_pos hdom]
    obtain ⟨s, hs, hsd⟩ := List.any_eq_true.1 hdom
    rw [decide_eq_true_eq] at hsd
    rw [heq]
    exact ⟨fun s hs => Or.inl hs, hA, fun r h => h, Or.inr ⟨s, hs, hsd⟩⟩
  · -- p enters; members p dominates are removed
    have heq : processPoint sky p =
        (sky.filter (fun s => decide (¬ dominates p s))) ++ [p] := by
      rw [processPoint, if_neg hdom]
    have hnod : ∀ s ∈ sky, ¬ dominates s p := by
      intro s hs hd
      exact hdom (List.any_eq_true.2 ⟨s, hs, decide_eq_true hd⟩)
    have hmem : ∀ s, s ∈ processPoint sky p ↔
        (s ∈ sky ∧ ¬ dominates p s) ∨ s = p := by
      intro s
      rw [heq, List.mem_append, List.mem_filter, List.mem_singleton]
      simp only [decide_eq_true_eq]
    refine ⟨?_, ?_, ?_, ?_⟩
    · intro s hs
      rcases (hmem s).1 hs with ⟨h, _⟩ | h
      · exact Or.inl h
      · exact Or.inr h
    · intro a ha b hb
      rcases (hmem a).1 ha with ⟨ha1, ha2⟩ | rfl <;>
        rcases (hmem b).1 hb with ⟨hb1, hb2⟩ | rfl
      · exact hA a ha1 b hb1
      · exact hnod a ha1
      · exact hb2
      · exact dominates_irrefl _
    · intro r hr
      rcases hr with hr | ⟨s, hs, hsd⟩
      · by_cases hp : dominates p r
        · exact Or.inr ⟨p, (hmem p).2 (Or.inr rfl), hp⟩
        · exact Or.inl ((hmem r).2 (Or.inl ⟨hr, hp⟩))
      · by_cases hp : dominates p s
        · exact Or.inr ⟨p, (hmem p).2 (Or.inr rfl), dominates_trans hp hsd⟩
        · exact Or.inr ⟨s, (hmem s).2 (Or.inl ⟨hs, hp⟩), hsd⟩
    · exact Or.inl ((hmem p).2 (Or.inr rfl))

theorem foldl_processPoint_spec (pts : List Point) : ∀ (sky : List Point),
    (∀ a ∈ sky, ∀ b ∈ sky, ¬ dominates a b) →
    (∀ s ∈ pts.foldl processPoint sky, s ∈ sky ∨ s ∈ pts) ∧
    (∀ a ∈ pts.foldl processPoint sky, ∀ b ∈ pts.foldl processPoint sky, ¬ dominates a b) ∧
    (∀ r, covers sky r → covers (pts.foldl processPoint sky) r) ∧
    (∀ r ∈ pts, covers (pts.foldl processPoint sky) r) := by
  induction pts with
  | nil =>
    intro sky hA
    exact ⟨fun s hs => Or.inl hs, hA, fun r h => h, by simp⟩
  | cons p rest ih =>
    intro sky hA
    obtain ⟨p1, p2, p3, p4⟩ := processPoint_spec sky p hA
    obtain ⟨i1, i2, i3, i4⟩ := ih (processPoint sky p) p2
    simp only [List.foldl_cons]
    refine ⟨?_, i2, ?_, ?_⟩
    · intro s hs
      rcases i1 s hs with h | h
      · rcases p1 s h with h' | h'
        · exact Or.inl h'
        · exact Or.inr (h' ▸ List.mem_cons_self p rest)
      · exact Or.inr (List.mem_cons_of_mem p h)
    · intro r hr
      exact i3 r (p3 r hr)
    · intro r hr
      rcases List.mem_cons.1 hr with rfl | hr
      · exact i3 r p4
      · exact i4 r hr

theorem sizeList_perm {l1 l2 : List RNode} (h : List.Perm l1 l2) : sizeList l1 = sizeList l2 := by
  induction h with
  | nil => rfl
  | cons x _ ih => simp [sizeList, ih]
  | swap x y l => simp [sizeList]; omega
  | trans _ _ ih1 ih2 => omega

/-- Pruning soundness of BBS: if a skyline point dominates the best corner
`(x1, y2)` of a rectangle, it dominates every point inside the rectangle. -/
theorem dominates_corner {s : Point} {m : MBR} {r : Point}
    (hd : dominates s (cornerPoint m)) (hin : inMBR m r) : dominates s r := by
  obtain ⟨hx, hy, hs⟩ := hd
  obtain ⟨h1, h2, h3, h4⟩ := hin
  simp only [cornerPoint] at hx hy hs
  refine ⟨le_trans hx h1, le_trans h4 hy, ?_⟩
  rcases hs with h | h
  · exact Or.inl (lt_of_lt_of_le h h1)
  · exact Or.inr (lt_of_le_of_lt h4 h)

theorem bbsLoop_spec : ∀ (M : Nat) (L : List (ℚ × RNode)), sizeList (L.map Prod.snd) ≤ M →
    ∀ (U : List Point) (sky : List Point),
    (∀ e ∈ L, wfShape e.2 ∧ containedList e.2.child_nodes) →
    (∀ e ∈ L, ∀ r ∈ e.2.allPoints, r ∈ U) →
    (∀ s ∈ sky, s ∈ U) →
    (∀ a ∈ sky, ∀ b ∈ sky, ¬ dominates a b) →
    (∀ r ∈ U, (∃ e ∈ L, r ∈ e.2.allPoints) ∨ covers sky r) →
    (∀ s ∈ bbsLoop L sky, s ∈ U) ∧
    (∀ a ∈ bbsLoop L sky, ∀ b ∈ bbsLoop L sky, ¬ dominates a b) ∧
    (∀ r ∈ U, covers (bbsLoop L sky) r) := by
  intro M
  induction M with
  | zero =>
    intro L hsize U sky hq hU hskyU hA hB
    have hL : L = [] := by
      have := sizeList_eq_nil (L := L.map Prod.snd) (by omega)
      exact List.map_eq_nil_iff.1 this
    subst hL
    simp only [bbsLoop]
    refine ⟨hskyU, hA, ?_⟩
    intro r hr
    rcases hB r hr with ⟨e, he, _⟩ | h
    · simp at he
    · exact h
  | succ M ih =>
    intro L hsize U sky hq hU hskyU hA hB
    cases L with
    | nil =>
      simp only [bbsLoop]
      refine ⟨hskyU, hA, ?_⟩
      intro r hr
      rcases hB r hr with ⟨e, he, _⟩ | h
      · simp at he
      · exact h
    | cons e rest =>
      obtain ⟨k, n⟩ := e
      have hsn := size_pos n
      by_cases hleaf : n.child_nodes.isEmpty
      · -- leaf: fold its points into the skyline
        have heq : bbsLoop ((k, n) :: rest) sky =
            bbsLoop rest (n.data_points.foldl processPoint sky) := by
          simp only [bbsLoop, hleaf, if_true]
        have hchn : n.child_nodes = [] := List.isEmpty_iff.1 hleaf
        obtain ⟨f1, f2, f3, f4⟩ := foldl_processPoint_spec n.data_points sky hA
        have hnU : ∀ r ∈ n.data_points, r ∈ U := by
          intro r hr
          refine hU (k, n) (List.mem_cons_self _ _) r ?_
          rw [allPoints_leaf hchn]
          exact hr
        have hsize' : sizeList (rest.map Prod.snd) ≤ M := by
          simp only [List.map_cons, sizeList] at hsize
          omega
        refine heq ▸ ih rest hsize' U (n.data_points.foldl processPoint sky)
          (fun x hx => hq x (List.mem_cons_of_mem _ hx))
          (fun x hx => hU x (List.mem_cons_of_mem _ hx)) ?_ f2 ?_
        · intro s hs
          rcases f1 s hs with h | h
          · exact hskyU s h
          · exact hnU s h
        · intro r hr
          rcases hB r hr with ⟨e', he', hre'⟩ | h
          · rcases List.mem_cons.1 he' with rfl | he'
            · refine Or.inr (f4 r ?_)
              rwa [allPoints_leaf hchn] at hre'
            · exact Or.inl ⟨e', he', hre'⟩
          · exact Or.inr (f3 r h)
      · -- internal: push the children whose corner is not dominated
        have heq : bbsLoop ((k, n) :: rest) sky = bbsLoop
            (sortByKey Prod.fst
              (rest ++ (n.child_nodes.filter
                  (fun c => !(sky.any (fun s => decide (dominates s (cornerPoint c.mbr)))))).map
                (fun c => (mindist_to_origin c.mbr, c))))
            sky := by
          simp only [bbsLoop, hleaf]
          simp
        have hchn : n.child_nodes ≠ [] := by simpa [List.isEmpty_iff] using hleaf
        have hwfn := (hq (k, n) (List.mem_cons_self _ _)).1
        have hcontn := (hq (k, n) (List.mem_cons_self _ _)).2
        have hAPn : n.allPoints = allPointsList n.child_nodes := allPoints_internal hwfn hchn
        set F := n.child_nodes.filter
          (fun c => !(sky.any (fun s => decide (dominates s (cornerPoint c.mbr))))) with hF
        set L' := sortByKey Prod.fst (rest ++ F.map (fun c => (mindist_to_origin c.mbr, c)))
          with hL'
        have hmemL' : ∀ x, x ∈ L' ↔ x ∈ rest ∨ ∃ c ∈ F, x = (mindist_to_origin c.mbr, c) := by
          intro x
          rw [hL', (sortByKey_perm _ _).mem_iff, List.mem_append, List.mem_map]
          constructor
          · rintro (h | ⟨c, hc, rfl⟩)
            · exact Or.inl h
            · exact Or.inr ⟨c, hc, rfl⟩
          · rintro (h | ⟨c, hc, rfl⟩)
            · exact Or.inl h
            · exact Or.inr ⟨c, hc, rfl⟩
        have hFmem : ∀ c ∈ F, c ∈ n.child_nodes := by
          intro c hc
          exact (List.mem_filter.1 (hF ▸ hc)).1
        have hsize' : sizeList (L'.map Prod.snd) ≤ M := by
          have hperm1 : List.Perm (L'.map Prod.snd)
              ((rest ++ F.map (fun c => (mindist_to_origin c.mbr, c))).map Prod.snd) :=
            (sortByKey_perm _ _).map Prod.snd
          have h1 := sizeList_perm hperm1
          rw [List.map_append] at h1
          have h2 : (F.map (fun c => (mindist_to_origin c.mbr, c))).map Prod.snd = F := by
            rw [List.map_map]
            have hcomp : (Prod.snd ∘ fun c : RNode => (mindist_to_origin c.mbr, c)) = id := rfl
            rw [hcomp, List.map_id]
          rw [h2, sizeList_append] at h1
          have h3 : sizeList F ≤ sizeList n.child_nodes := by
            rw [hF]
            exact sizeList_filter_le _ _
          have h4 : n.size = 1 + sizeList n.child_nodes := by
            cases n with | mk m2 ps2 cs2 => simp [RNode.size, RNode.child_nodes]
          simp only [List.map_cons, sizeList] at hsize
          omega
        refine heq ▸ ih L' hsize' U sky ?_ ?_ hskyU hA ?_
        · intro x hx
          rcases (hmemL' x).1 hx with h | ⟨c, hc, rfl⟩
          · exact hq x (List.mem_cons_of_mem _ h)
          · have hcm := hFmem c hc
            have hwfc : wfShape c := by
              rw [wfShape_def] at hwfn
              exact wfShapeList_iff.1 hwfn.2 c hcm
            have hcontc : contained c := containedList_iff.1 hcontn c hcm
            exact ⟨hwfc, ((contained_def c).1 hcontc).2⟩
        · intro x hx
          rcases (hmemL' x).1 hx with h | ⟨c, hc, rfl⟩
          · exact hU x (List.mem_cons_of_mem _ h)
          · intro r hr
            refine hU (k, n) (List.mem_cons_self _ _) r ?_
            rw [hAPn]
            exact mem_allPointsList.2 ⟨c, hFmem c hc, hr⟩
        · intro r hr
          rcases hB r hr with ⟨e', he', hre'⟩ | h
          · rcases List.mem_cons.1 he' with rfl | he'
            · rw [hAPn] at hre'
              obtain ⟨c, hc, hrc⟩ := mem_allPointsList.1 hre'
              by_cases hf : (sky.any (fun s => decide (dominates s (cornerPoint c.mbr))))
              · -- pruned subtree: a skyline member dominates its corner,
                -- hence every point in it
                obtain ⟨s, hs, hsd⟩ := List.any_eq_true.1 hf
                rw [decide_eq_true_eq] at hsd
                have hcontc : contained c := containedList_iff.1 hcontn c hc
                have hin : inMBR c.mbr r := ((contained_def c).1 hcontc).1 r hrc
                exact Or.inr (Or.inr ⟨s, hs, dominates_corner hsd hin⟩)
              · have hcF : c ∈ F := by
                  rw [hF]
                  exact List.mem_filter.2 ⟨hc, by simpa using hf⟩
                exact Or.inl ⟨(mindist_to_origin c.mbr, c),
                  (hmemL' _).2 (Or.inr ⟨c, hcF, rfl⟩), hrc⟩
            · exact Or.inl ⟨e', (hmemL' e').2 (Or.inl he'), hre'⟩
          · exact Or.inr h

/-- Correctness of single-tree BBS against the brute-force dominance
filter: the returned list holds exactly the inserted points no inserted
point dominates. -/
theorem bbs_correct (ps : List Point) (p : Point) :
    p ∈ bbs_skyline_search (buildTree ps) ↔ p ∈ ps ∧ ∀ q ∈ ps, ¬ dominates q p := by
  obtain ⟨hwf, hcont, hperm⟩ := buildTree_spec ps
  set t := buildTree ps with ht
  set L0 := sortByKey Prod.fst [(mindist_to_origin t.mbr, t)] with hL0
  have hmem0 : ∀ x, x ∈ L0 ↔ x = (mindist_to_origin t.mbr, t) := by
    intro x
    rw [hL0, (sortByKey_perm _ _).mem_iff]
    simp
  have hres : bbs_skyline_search t = bbsLoop L0 [] := rfl
  obtain ⟨g1, g2, g3⟩ := bbsLoop_spec (sizeList (L0.map Prod.snd)) L0 (le_refl _) ps []
    (by
      intro e he
      rw [hmem0] at he
      subst he
      exact ⟨hwf, hcont⟩)
    (by
      intro e he
      rw [hmem0] at he
      subst he
      intro r hr
      exact hperm.mem_iff.1 hr)
    (by simp)
    (by simp)
    (by
      intro r hr
      refine Or.inl ⟨(mindist_to_origin t.mbr, t), (hmem0 _).2 rfl, ?_⟩
      exact hperm.mem_iff.2 hr)
  rw [hres]
  constructor
  · intro hp
    refine ⟨g1 p hp, ?_⟩
    intro q hq hdom
    rcases g3 q hq with hqin | ⟨s, hs, hsd⟩
    · exact g2 q hqin p hp hdom
    · exact g2 s hs p hp (dominates_trans hsd hdom)
  · rintro ⟨hp, hnd⟩
    rcases g3 p hp with h | ⟨s, hs, hsd⟩
    · exact h
    · exact absurd hsd (hnd s (g1 s hs))

theorem filter_length_mono {l : List Point} {P Q : Point → Bool}
    (h : ∀ x ∈ l, P x = true → Q x = true) :
    (l.filter P).length ≤ (l.filter Q).length := by
  induction l with
  | nil => simp
  | cons a l ih =>
    have ih' := ih (fun x hx => h x (List.mem_cons_of_mem a hx))
    by_cases ha : P a
    · have hqa : Q a := h a (List.mem_cons_self a l) ha
      simp only [List.filter_cons, ha, hqa, if_true, List.length_cons]
      omega
    · simp only [Bool.not_eq_true] at ha
      simp only [List.filter_cons, ha, Bool.false_eq_true, if_false]
      by_cases hqa : Q a
      · simp only [hqa, if_true, List.length_cons]
        omega
      · simp only [hqa, Bool.false_eq_true, if_false]
        exact ih'

theorem filter_dominators_lt {l : List Point} {p q : Point}
    (hq : q ∈ l) (hqp : dominates q p) :
    (l.filter (fun x => decide (dominates x q))).length
      < (l.filter (fun x => decide (dominates x p))).length := by
  obtain ⟨s, t, rfl⟩ := List.append_of_mem hq
  have hPq : (decide (dominates q q)) = false := by
    simp [dominates_irrefl q]
  have hQq : (decide (dominates q p)) = true := decide_eq_true hqp
  have hmono : ∀ (u : List Point),
      (u.filter (fun x => decide (dominates x q))).length
        ≤ (u.filter (fun x => decide (dominates x p))).length := by
    intro u
    refine filter_length_mono ?_
    intro x _ hx
    rw [decide_eq_true_eq] at hx
    exact decide_eq_true (dominates_trans hx hqp)
  rw [List.filter_append, List.filter_append, List.length_append, List.length_append,
    List.filter_cons, List.filter_cons, hPq, hQq]
  simp only [Bool.false_eq_true, if_false, if_true, List.length_cons]
  have h1 := hmono s
  have h2 := hmono t
  omega

theorem exists_maximal : ∀ (n : Nat) (l : List Point) (p : Point), p ∈ l →
    (l.filter (fun x => decide (dominates x p))).length ≤ n →
    ∃ m ∈ l, (m = p ∨ dominates m p) ∧ ∀ q ∈ l, ¬ dominates q m := by
  intro n
  induction n with
  | zero =>
    intro l p hp hn
    refine ⟨p, hp, Or.inl rfl, ?_⟩
    intro q hq hdom
    have : q ∈ l.filter (fun x => decide (dominates x p)) :=
      List.mem_filter.2 ⟨hq, decide_eq_true hdom⟩
    have := List.length_pos_of_mem this
    omega
  | succ n ih =>
    intro l p hp hn
    by_cases hnd : ∀ q ∈ l, ¬ dominates q p
    · exact ⟨p, hp, Or.inl rfl, hnd⟩
    · push_neg at hnd
      obtain ⟨q, hq, hqp⟩ := hnd
      have hlt := filter_dominators_lt hq hqp
      obtain ⟨m, hm, hmq, hmnd⟩ := ih l q hq (by omega)
      refine ⟨m, hm, Or.inr ?_, hmnd⟩
      rcases hmq with rfl | hmq
      · exact hqp
      · exact dominates_trans hmq hqp

theorem exists_maximal' {l : List Point} {p : Point} (hp : p ∈ l) :
    ∃ m ∈ l, (m = p ∨ dominates m p) ∧ ∀ q ∈ l, ¬ dominates q m :=
  exists_maximal _ l p hp (le_refl _)

theorem divide_dataset_perm (ps : List Point) :
    List.Perm ((divide_dataset ps).1 ++ (divide_dataset ps).2) ps := by
  rw [divide_dataset]
  simp only [List.take_append_drop]
  exact sortByKey_perm _ _

/-- Correctness of the divide-and-conquer skyline driver against the
brute-force dominance filter. -/
theorem bbs_dc_correct (ps : List Point) (p : Point) :
    p ∈ bbs_divide_and_conquer ps ↔ p ∈ ps ∧ ∀ q ∈ ps, ¬ dominates q p := by
  have h12 := divide_dataset_perm ps
  set s1 := (divide_dataset ps).1 with hs1
  set s2 := (divide_dataset ps).2 with hs2
  have hsub1 : ∀ x ∈ s1, x ∈ ps := by
    intro x hx
    exact h12.mem_iff.1 (List.mem_append.2 (Or.inl hx))
  have hsub2 : ∀ x ∈ s2, x ∈ ps := by
    intro x hx
    exact h12.mem_iff.1 (List.mem_append.2 (Or.inr hx))
  have hdc : bbs_divide_and_conquer ps =
      (bbs_skyline_search (buildTree s1) ++ bbs_skyline_search (buildTree s2)).filter
        (fun r => !((bbs_skyline_search (buildTree s1)
            ++ bbs_skyline_search (buildTree s2)).any (fun q => decide (dominates q r)))) := by
    rw [bbs_divide_and_conquer]
  set combined := bbs_skyline_search (buildTree s1) ++ bbs_skyline_search (buildTree s2)
    with hcomb
  have hmemc : ∀ x, x ∈ combined ↔
      x ∈ bbs_skyline_search (buildTree s1) ∨ x ∈ bbs_skyline_search (buildTree s2) := by
    intro x
    rw [hcomb, List.mem_append]
  have hcsub : ∀ x ∈ combined, x ∈ ps := by
    intro x hx
    rcases (hmemc x).1 hx with h | h
    · exact hsub1 x ((bbs_correct s1 x).1 h).1
    · exact hsub2 x ((bbs_correct s2 x).1 h).1
  have hmemdc : ∀ x, x ∈ bbs_divide_and_conquer ps ↔
      x ∈ combined ∧ ∀ q ∈ combined, ¬ dominates q x := by
    intro x
    rw [hdc, List.mem_filter]
    simp only [Bool.not_eq_true', List.any_eq_false, decide_eq_false_iff_not,
      decide_eq_true_eq]
  rw [hmemdc]
  constructor
  · rintro ⟨hpc, hpnd⟩
    refine ⟨hcsub p hpc, ?_⟩
    intro q hq hdom
    have hq12 : q ∈ s1 ∨ q ∈ s2 := by
      have := h12.mem_iff.2 hq
      exact List.mem_append.1 this
    rcases hq12 with hqs | hqs
    · obtain ⟨m, hm, hmq, hmnd⟩ := exists_maximal' hqs
      have hmc : m ∈ combined := (hmemc m).2 (Or.inl ((bbs_correct s1 m).2 ⟨hm, hmnd⟩))
      refine hpnd m hmc ?_
      rcases hmq with rfl | hmq
      · exact hdom
      · exact dominates_trans hmq hdom
    · obtain ⟨m, hm, hmq, hmnd⟩ := exists_maximal' hqs
      have hmc : m ∈ combined := (hmemc m).2 (Or.inr ((bbs_correct s2 m).2 ⟨hm, hmnd⟩))
      refine hpnd m hmc ?_
      rcases hmq with rfl | hmq
      · exact hdom
      · exact dominates_trans hmq hdom
  · rintro ⟨hp, hnd⟩
    have hp12 : p ∈ s1 ∨ p ∈ s2 := by
      have := h12.mem_iff.2 hp
      exact List.mem_append.1 this
    have hpc : p ∈ combined := by
      rcases hp12 with hps | hps
      · exact (hmemc p).2 (Or.inl ((bbs_correct s1 p).2
          ⟨hps, fun q hq => hnd q (hsub1 q hq)⟩))
      · exact (hmemc p).2 (Or.inr ((bbs_correct s2 p).2
          ⟨hps, fun q hq => hnd q (hsub2 q hq)⟩))
    exact ⟨hpc, fun q hq => hnd q (hcsub q hq)⟩

/-! ## MBR recomputation on the insertion path (non-overflowing insertions) -/

theorem update_mbr_idem (n : RNode) : update_mbr (update_mbr n) = update_mbr n := by
  cases n with | mk m ps cs =>
  by_cases h : cs.isEmpty <;>
    simp [update_mbr, RNode.child_nodes, RNode.data_points, h]

theorem receivingLeafChild_eq {cs : List RNode} {i : Nat} (h : i < cs.length) (p : Point) :
    receivingLeafChild cs i p = receivingLeaf (nthChild cs i) p := by
  induction cs generalizing i with
  | nil => simp at h
  | cons c rest ih =>
    cases i with
    | zero => simp [receivingLeafChild, nthChild]
    | succ j =>
      simp only [List.length_cons, Nat.succ_lt_succ_iff] at h
      simp only [receivingLeafChild, nthChild, List.getD_cons_succ]
      exact ih h

theorem pathIndicesChild_eq {cs : List RNode} {i : Nat} (h : i < cs.length) (p : Point) :
    pathIndicesChild cs i p = pathIndices (nthChild cs i) p := by
  induction cs generalizing i with
  | nil => simp at h
  | cons c rest ih =>
    cases i with
    | zero => simp [pathIndicesChild, nthChild]
    | succ j =>
      simp only [List.length_cons, Nat.succ_lt_succ_iff] at h
      simp only [pathIndicesChild, nthChild, List.getD_cons_succ]
      exact ih h

theorem getPath_update_mbr {x : RNode} {js : List Nat} (h : js ≠ []) :
    getPath (update_mbr x) js = getPath x js := by
  cases js with
  | nil => exact absurd rfl h
  | cons j rest =>
    simp only [getPath, update_mbr_child_nodes]

/-- A non-overflowing insertion (the `choose_subtree` leaf still has room)
returns `Sum.inl`, leaves the entry node's own MBR untouched, and leaves
every node strictly below the entry node along the descent path with a
freshly recomputed (hence recompute-idempotent) MBR. -/
theorem insert_noSplit : ∀ (N : Nat) (t : RNode), t.size ≤ N → ∀ (p : Point),
    (receivingLeaf t p).data_points.length < B →
    ∃ t', insertNode t p = Sum.inl t' ∧
      (t.child_nodes ≠ [] → t'.mbr = t.mbr) ∧
      (∀ js n, js ≠ [] → js <+: pathIndices t p → getPath t' js = some n →
        update_mbr n = n) := by
  intro N
  induction N with
  | zero =>
    intro t hsize
    have := size_pos t
    omega
  | succ N ih =>
    intro t hsize p hroom
    cases t with | mk m ps cs =>
    by_cases hcs : cs = []
    · subst hcs
      have hrl : receivingLeaf (.mk m ps []) p = .mk m ps [] := by
        simp [receivingLeaf]
      rw [hrl] at hroom
      simp only [RNode.data_points] at hroom
      have hnoover : ¬ (add_data_point (.mk m ps []) p).data_points.length > B := by
        rw [add_data_point_data_points]
        simp only [RNode.data_points, List.length_append, List.length_singleton]
        omega
      refine ⟨add_data_point (.mk m ps []) p, ?_, ?_, ?_⟩
      · simp only [insertNode]
        simp [hnoover]
      · intro h
        simp [RNode.child_nodes] at h
      · intro js n hne hpref hget
        have hpi : pathIndices (.mk m ps []) p = [] := by
          simp [pathIndices]
        rw [hpi] at hpref
        rw [List.prefix_nil] at hpref
        exact absurd hpref hne
    · have hne : ¬ cs.isEmpty = true := by simpa [List.isEmpty_iff] using hcs
      have hi : chooseIdx cs p < cs.length := chooseIdx_lt hcs p
      set i := chooseIdx cs p with hidef
      have hrl : receivingLeaf (.mk m ps cs) p = receivingLeaf (nthChild cs i) p := by
        rw [receivingLeaf]
        simp only [hne, if_false]
        exact receivingLeafChild_eq hi p
      rw [hrl] at hroom
      have hvsize : (nthChild cs i).size ≤ N := by
        have : (nthChild cs i).size < (RNode.mk m ps cs).size :=
          size_lt_of_mem (nthChild_mem hi)
        simp only [RNode.size] at *
        omega
      obtain ⟨v', hrec, hmbr', hpath'⟩ := ih (nthChild cs i) hvsize p hroom
      refine ⟨.mk m ps (cs.set i (update_mbr v')), ?_, ?_, ?_⟩
      · have hinteq : insertNode (.mk m ps cs) p =
            match insertChild cs i p with
            | Sum.inl v' => Sum.inl (.mk m ps (cs.set i (update_mbr v')))
            | Sum.inr (a, b) =>
              let u' := add_child (add_child (.mk m ps (cs.eraseIdx i)) a) b
              if u'.child_nodes.length > B then Sum.inr (split u') else Sum.inl u' := by
          simp [insertNode, hne, hidef]
        rw [hinteq, insertChild_eq hi, hrec]
      · intro _
        simp [RNode.mbr]
      · intro js n hjs hpref hget
        have hpi : pathIndices (.mk m ps cs) p = i :: pathIndices (nthChild cs i) p := by
          rw [pathIndices, if_neg hne, ← hidef, pathIndicesChild_eq hi]
        rw [hpi] at hpref
        cases js with
        | nil => exact absurd rfl hjs
        | cons j js0 =>
          obtain ⟨rfl, hpref0⟩ : j = i ∧ js0 <+: pathIndices (nthChild cs i) p := by
            rcases hpref with ⟨tail, htail⟩
            rw [List.cons_append] at htail
            injection htail with h1 h2
            exact ⟨h1, ⟨tail, h2⟩⟩
          have hgetstep : (RNode.mk m ps (cs.set i (update_mbr v'))).child_nodes[i]?
              = some (update_mbr v') := by
            rw [RNode.child_nodes]
            rw [List.getElem?_set_self (by omega)]
          have hget2 : getPath (update_mbr v') js0 = some n := by
            have hstep : getPath (RNode.mk m ps (cs.set i (update_mbr v'))) (i :: js0)
                = getPath (update_mbr v') js0 := by
              rw [getPath.eq_def]
              simp only [hgetstep]
            rw [← hstep]
            exact hget
          cases js0 with
          | nil =>
            have hsome : some (update_mbr v') = some n := hget2
            rw [Option.some.injEq] at hsome
            rw [← hsome]
            exact update_mbr_idem v'
          | cons j1 js1 =>
            rw [getPath_update_mbr (by simp)] at hget2
            exact hpath' (j1 :: js1) n (by simp) hpref0 hget2

/-! ## Real-valued distance lemmas (`sqrt` level) -/

theorem distSq_nonneg (p q : Point) : 0 ≤ distSq p q := by
  rw [distSq]
  positivity

theorem mbrMinDistSq_nonneg (m : MBR) (q : Point) : 0 ≤ mbrMinDistSq m q := by
  rw [mbrMinDistSq]
  positivity

theorem distSq_comm (p q : Point) : distSq p q = distSq q p := by
  rw [distSq, distSq]
  ring

/-- Bridge between the squared-distance comparisons used by the executable
search code and the `sqrt`-level comparisons the source performs: `sqrt` is
strictly monotone on nonnegative arguments, so they agree. -/
theorem euclidean_distance_lt_iff (p q r s : Point) :
    euclidean_distance p q < euclidean_distance r s ↔ distSq p q < distSq r s := by
  rw [euclidean_distance, euclidean_distance,
    Real.sqrt_lt_sqrt_iff (by exact_mod_cast distSq_nonneg p q)]
  exact_mod_cast Iff.rfl

theorem euclidean_distance_le_of_distSq_le {p q r s : Point}
    (h : distSq p q ≤ distSq r s) : euclidean_distance p q ≤ euclidean_distance r s := by
  rw [euclidean_distance, euclidean_distance]
  exact Real.sqrt_le_sqrt (by exact_mod_cast h)

theorem mbr_min_distance_le_of_sq_le {m : MBR} {p q r : Point}
    (h : mbrMinDistSq m p ≤ distSq q r) : mbr_min_distance m p ≤ euclidean_distance q r := by
  rw [mbr_min_distance, euclidean_distance]
  exact Real.sqrt_le_sqrt (by exact_mod_cast h)

theorem mbrDx_eq_zero_of_inside {m : MBR} {p : Point} (h : inMBR m p) : mbrDx m p = 0 := by
  obtain ⟨h1, h2, _, _⟩ := h
  have hin : max (m.x1 - p.x) 0 = 0 := max_eq_right (by linarith)
  rw [mbrDx, hin]
  exact max_eq_left (by linarith)

theorem mbrDy_eq_zero_of_inside {m : MBR} {p : Point} (h : inMBR m p) : mbrDy m p = 0 := by
  obtain ⟨_, _, h3, h4⟩ := h
  have hin : max (m.y1 - p.y) 0 = 0 := max_eq_right (by linarith)
  rw [mbrDy, hin]
  exact max_eq_left (by linarith)

/-! ## The claims -/

/-- C1: for every finite sequence of points inserted into the R-tree
(B = 4) and every query point, `rtree_nearest_neighbor_search` returns a
point whose Euclidean distance to the query equals the minimum distance of
an exhaustive linear scan over all inserted points: the returned point is
an inserted point and no inserted point is strictly closer.  (The model is
a pure function, so the tie-break — keep the first strictly-improving
point in traversal order — is a fixed, deterministic rule.) -/
theorem C1_nearest_neighbor_matches_linear_scan (ps : List Point) (q : Point)
    (hne : ps ≠ []) :
    ∃ pt, rtree_nearest_neighbor_search (buildTree ps) q = some pt ∧ pt ∈ ps ∧
      ∀ r ∈ ps, euclidean_distance pt q ≤ euclidean_distance r q := by
  obtain ⟨hnone, hsome⟩ := nn_search_spec ps q
  rcases hres : rtree_nearest_neighbor_search (buildTree ps) q with _ | pt
  · exact absurd (hnone.1 hres) hne
  · obtain ⟨hmem, hmin⟩ := hsome pt hres
    exact ⟨pt, rfl, hmem, fun r hr => euclidean_distance_le_of_distSq_le (hmin r hr)⟩

/-- C1 witness: a concrete two-point data set and query. -/
theorem C1_witness :
    ([⟨1, 0, 0⟩, ⟨2, 3, 4⟩] : List Point) ≠ [] ∧
    ∃ pt, rtree_nearest_neighbor_search (buildTree [⟨1, 0, 0⟩, ⟨2, 3, 4⟩]) ⟨3, 1, 1⟩
        = some pt ∧ pt ∈ ([⟨1, 0, 0⟩, ⟨2, 3, 4⟩] : List Point) ∧
      ∀ r ∈ ([⟨1, 0, 0⟩, ⟨2, 3, 4⟩] : List Point),
        euclidean_distance pt ⟨3, 1, 1⟩ ≤ euclidean_distance r ⟨3, 1, 1⟩ :=
  ⟨by simp, C1_nearest_neighbor_matches_linear_scan [⟨1, 0, 0⟩, ⟨2, 3, 4⟩] ⟨3, 1, 1⟩ (by simp)⟩

/-- C2: for every finite sequence of inserted points, `bbs_skyline_search`
returns exactly the non-dominated input points; no two returned points
dominate each other, and every excluded input point is dominated by some
returned point. -/
theorem C2_bbs_skyline_equals_brute_force (ps : List Point) :
    (∀ p, p ∈ bbs_skyline_search (buildTree ps) ↔ nondominated ps p) ∧
    (∀ a ∈ bbs_skyline_search (buildTree ps), ∀ b ∈ bbs_skyline_search (buildTree ps),
      ¬ dominates a b) ∧
    (∀ p ∈ ps, p ∉ bbs_skyline_search (buildTree ps) →
      ∃ m ∈ bbs_skyline_search (buildTree ps), dominates m p) := by
  refine ⟨fun p => bbs_correct ps p, ?_, ?_⟩
  · intro a ha b hb
    obtain ⟨_, hnd⟩ := (bbs_correct ps b).1 hb
    exact hnd a ((bbs_correct ps a).1 ha).1
  · intro p hp hnot
    have : ¬ (p ∈ ps ∧ ∀ q ∈ ps, ¬ dominates q p) := fun h => hnot ((bbs_correct ps p).2 h)
    push_neg at this
    obtain ⟨q, hq, hqp⟩ := this hp
    obtain ⟨m, hm, hmq, hmnd⟩ := exists_maximal' hq
    refine ⟨m, (bbs_correct ps m).2 ⟨hm, hmnd⟩, ?_⟩
    rcases hmq with rfl | hmq
    · exact hqp
    · exact dominates_trans hmq hqp

/-- C5: for every rectangle with `x1 ≤ x2`, `y1 ≤ y2` and every query
point `p`, `mbr_min_distance` equals `sqrt(dx² + dy²)` with
`dx = max(x1 − p.x, 0, p.x − x2)` and `dy` symmetric on `y`; it is `0`
whenever `p` lies inside or on the boundary, and it never exceeds the
Euclidean distance from `p` to any point contained in the rectangle. -/
theorem C5_mbr_min_distance_admissible (r : MBR) (p : Point)
    (hx : r.x1 ≤ r.x2) (hy : r.y1 ≤ r.y2) :
    mbr_min_distance r p
        = Real.sqrt (((mbrDx r p : ℚ) : ℝ) ^ 2 + ((mbrDy r p : ℚ) : ℝ) ^ 2) ∧
    (inMBR r p → mbr_min_distance r p = 0) ∧
    (∀ q : Point, inMBR r q → mbr_min_distance r p ≤ euclidean_distance p q) := by
  refine ⟨?_, ?_, ?_⟩
  · rw [mbr_min_distance, mbrMinDistSq]
    push_cast
    rfl
  · intro hin
    rw [mbr_min_distance, mbrMinDistSq, mbrDx_eq_zero_of_inside hin,
      mbrDy_eq_zero_of_inside hin]
    simp
  · intro q hin
    refine mbr_min_distance_le_of_sq_le ?_
    rw [distSq_comm]
    exact mbrMinDistSq_le_distSq hin

/-- C5 witness: the unit square with inside and outside query points. -/
theorem C5_witness :
    (0 : ℚ) ≤ 1 ∧
    (mbr_min_distance ⟨0, 0, 1, 1⟩ ⟨9, 1/2, 1/2⟩
        = Real.sqrt (((mbrDx ⟨0, 0, 1, 1⟩ ⟨9, 1/2, 1/2⟩ : ℚ) : ℝ) ^ 2
          + ((mbrDy ⟨0, 0, 1, 1⟩ ⟨9, 1/2, 1/2⟩ : ℚ) : ℝ) ^ 2) ∧
      (inMBR ⟨0, 0, 1, 1⟩ ⟨9, 1/2, 1/2⟩ → mbr_min_distance ⟨0, 0, 1, 1⟩ ⟨9, 1/2, 1/2⟩ = 0) ∧
      (∀ q : Point, inMBR ⟨0, 0, 1, 1⟩ q →
        mbr_min_distance ⟨0, 0, 1, 1⟩ ⟨9, 1/2, 1/2⟩ ≤ euclidean_distance ⟨9, 1/2, 1/2⟩ q)) :=
  ⟨by norm_num,
    C5_mbr_min_distance_admissible ⟨0, 0, 1, 1⟩ ⟨9, 1/2, 1/2⟩ (by norm_num) (by norm_num)⟩

/-- C6: a node holding exactly `m = B + 1` entries splits into two nodes
whose contents partition the original entries, each holding between
`ceil(0.4·B)` and `m − ceil(0.4·B)` entries; the chosen pair is the first
candidate (in the fixed axis/position iteration order) achieving the
minimum summed half-perimeter over all evaluated candidates. -/
theorem C6_split_partition_minimal (u : RNode) (h : contentCount u = B + 1) :
    firstMinCandidate (splitCandidates u) = some (split u) ∧
    (∀ c ∈ splitCandidates u, sumPeri (split u) ≤ sumPeri c) ∧
    (u.child_nodes = [] →
      List.Perm ((split u).1.data_points ++ (split u).2.data_points) u.data_points ∧
      (minFill ≤ (split u).1.data_points.length ∧
        (split u).1.data_points.length ≤ B + 1 - minFill) ∧
      (minFill ≤ (split u).2.data_points.length ∧
        (split u).2.data_points.length ≤ B + 1 - minFill)) ∧
    (u.child_nodes ≠ [] →
      List.Perm ((split u).1.child_nodes ++ (split u).2.child_nodes) u.child_nodes ∧
      (minFill ≤ (split u).1.child_nodes.length ∧
        (split u).1.child_nodes.length ≤ B + 1 - minFill) ∧
      (minFill ≤ (split u).2.child_nodes.length ∧
        (split u).2.child_nodes.length ≤ B + 1 - minFill)) := by
  have hmf := minFill_eq
  have hB : B = 4 := rfl
  by_cases hleaf : u.child_nodes = []
  · have hcc : u.data_points.length = B + 1 := by
      rw [contentCount] at h
      simpa [List.isEmpty_iff, hleaf] using h
    have hlen : 2 * minFill ≤ u.data_points.length := by omega
    have hcand : splitCandidates u = splitCandidatesLeaf u.data_points := by
      simp [splitCandidates, List.isEmpty_iff, hleaf]
    have hne := splitCandidatesLeaf_ne_nil hlen
    have hsplit : split u = pickBest (splitCandidatesLeaf u.data_points) := by
      rw [split, hcand]
    have hmem : split u ∈ splitCandidatesLeaf u.data_points := by
      rw [hsplit]
      exact pickBest_mem hne
    obtain ⟨d, i, hperm, hi1, hi2, heq⟩ := mem_splitCandidatesLeaf hlen hmem
    have hdlen : d.length = u.data_points.length := hperm.length_eq
    refine ⟨?_, ?_, ?_, fun hne' => absurd hleaf hne'⟩
    · rw [hcand, hsplit]
      exact pickBest_eq_firstMin hne
    · intro c hc
      rw [hcand] at hc
      rw [hsplit]
      exact pickBest_min hne c hc
    · intro _
      have h1 : (split u).1.data_points = d.take i := by
        rw [heq, update_mbr_data_points]
        rfl
      have h2 : (split u).2.data_points = d.drop i := by
        rw [heq, update_mbr_data_points]
        rfl
      refine ⟨?_, ?_, ?_⟩
      · rw [h1, h2, List.take_append_drop]
        exact hperm
      · rw [h1, List.length_take]
        omega
      · rw [h2, List.length_drop]
        omega
  · have hcc : u.child_nodes.length = B + 1 := by
      rw [contentCount] at h
      have : ¬ u.child_nodes.isEmpty = true := by simpa [List.isEmpty_iff] using hleaf
      simpa [this] using h
    have hlen : 2 * minFill ≤ u.child_nodes.length := by omega
    have hcand : splitCandidates u = splitCandidatesInternal u.child_nodes := by
      have : ¬ u.child_nodes.isEmpty = true := by simpa [List.isEmpty_iff] using hleaf
      simp [splitCandidates, this]
    have hne := splitCandidatesInternal_ne_nil hlen
    have hsplit : split u = pickBest (splitCandidatesInternal u.child_nodes) := by
      rw [split, hcand]
    have hmem : split u ∈ splitCandidatesInternal u.child_nodes := by
      rw [hsplit]
      exact pickBest_mem hne
    obtain ⟨d, i, hperm, hi1, hi2, heq⟩ := mem_splitCandidatesInternal hlen hmem
    have hdlen : d.length = u.child_nodes.length := hperm.length_eq
    refine ⟨?_, ?_, fun hl => absurd hl hleaf, fun _ => ?_⟩
    · rw [hcand, hsplit]
      exact pickBest_eq_firstMin hne
    · intro c hc
      rw [hcand] at hc
      rw [hsplit]
      exact pickBest_min hne c hc
    · have h1 : (split u).1.child_nodes = d.take i := by
        rw [heq, update_mbr_child_nodes]
        rfl
      have h2 : (split u).2.child_nodes = d.drop i := by
        rw [heq, update_mbr_child_nodes]
        rfl
      refine ⟨?_, ?_, ?_⟩
      · rw [h1, h2, List.take_append_drop]
        exact hperm
      · rw [h1, List.length_take]
        omega
      · rw [h2, List.length_drop]
        omega

/-- C6 witness: a leaf holding B + 1 = 5 concrete points. -/
theorem C6_witness :
    contentCount (.mk freshMBR
      [⟨1, 0, 0⟩, ⟨2, 5, 5⟩, ⟨3, 1, 1⟩, ⟨4, 10, 0⟩, ⟨5, 0, 10⟩] []) = B + 1 ∧
    firstMinCandidate (splitCandidates (.mk freshMBR
        [⟨1, 0, 0⟩, ⟨2, 5, 5⟩, ⟨3, 1, 1⟩, ⟨4, 10, 0⟩, ⟨5, 0, 10⟩] []))
      = some (split (.mk freshMBR
        [⟨1, 0, 0⟩, ⟨2, 5, 5⟩, ⟨3, 1, 1⟩, ⟨4, 10, 0⟩, ⟨5, 0, 10⟩] [])) :=
  ⟨by simp [contentCount, RNode.child_nodes, RNode.data_points, B],
    (C6_split_partition_minimal _
      (by simp [contentCount, RNode.child_nodes, RNode.data_points, B])).1⟩

/-- C7: `dominates` is a strict partial order: irreflexive, asymmetric and
transitive. -/
theorem C7_dominates_strict_partial_order (a b c : Point) :
    ¬ dominates a a ∧ (dominates a b → ¬ dominates b a) ∧
    (dominates a b → dominates b c → dominates a c) :=
  ⟨dominates_irrefl a, dominates_asymm, dominates_trans⟩

/-- C7 witness: concrete points on a dominance chain. -/
theorem C7_witness :
    ¬ dominates ⟨1, 0, 2⟩ ⟨1, 0, 2⟩ ∧ ¬ dominates ⟨2, 1, 1⟩ ⟨1, 0, 2⟩ ∧
    dominates (⟨1, 0, 2⟩ : Point) ⟨3, 2, 0⟩ :=
  ⟨(C7_dominates_strict_partial_order ⟨1, 0, 2⟩ ⟨2, 1, 1⟩ ⟨3, 2, 0⟩).1,
    (C7_dominates_strict_partial_order ⟨1, 0, 2⟩ ⟨2, 1, 1⟩ ⟨3, 2, 0⟩).2.1 (by decide),
    (C7_dominates_strict_partial_order ⟨1, 0, 2⟩ ⟨2, 1, 1⟩ ⟨3, 2, 0⟩).2.2 (by decide)
      (by decide)⟩

/-- C8: `rtree_nearest_neighbor_search` returns the not-found signal
(`none`, Python `None`) exactly when the tree holds zero points; the model
is a total function, so the zero-point case terminates normally with that
signal instead of raising. -/
theorem C8_none_iff_empty (ps : List Point) (q : Point) :
    rtree_nearest_neighbor_search (buildTree ps) q = none ↔ ps = [] :=
  (nn_search_spec ps q).1

/-- C9: the divide-and-conquer skyline driver (median-x partition, one
R-tree per half, BBS on each, concatenate and dominance-refilter) returns
exactly the same set of points as single-tree BBS over the whole set. -/
theorem C9_divide_and_conquer_equivalent (ps : List Point) (p : Point) :
    p ∈ bbs_divide_and_conquer ps ↔ p ∈ bbs_skyline_search (buildTree ps) := by
  rw [bbs_dc_correct ps p, bbs_correct ps p]

/-- C10: after every sequence of insertions from a fresh tree, every node
except the root has an MBR containing every data point of its subtree
(`containedList` asserts this recursively for the whole forest below the
root) — the containment that keeps subtree pruning sound in both
searches. -/
theorem C10_non_root_containment (ps : List Point) :
    containedList (buildTree ps).child_nodes ∧
    ∀ c ∈ (buildTree ps).child_nodes, ∀ p ∈ c.allPoints, inMBR c.mbr p := by
  obtain ⟨_, hcont, _⟩ := buildTree_spec ps
  refine ⟨hcont, ?_⟩
  intro c hc p hp
  exact ((contained_def c).1 (containedList_iff.1 hcont c hc)).1 p hp

/-- C3 (code evaluated at the failing input): inserting the single point
`(id 1, x 0, y 0)` into a fresh tree leaves the root's MBR at the sentinel
corners `(-1, -1, 0, 0)` — `add_data_point` only enlarges sides the point
exceeds — so recomputing the MBR is *not* a no-op: it yields
`(0, 0, 0, 0)`. -/
theorem C3_sentinel_root_mbr_not_tight :
    (buildTree [⟨1, 0, 0⟩]).mbr = ⟨-1, -1, 0, 0⟩ ∧
    (update_mbr (buildTree [⟨1, 0, 0⟩])).mbr = ⟨0, 0, 0, 0⟩ ∧
    update_mbr (buildTree [⟨1, 0, 0⟩]) ≠ buildTree [⟨1, 0, 0⟩] := by
  have h1 : buildTree [⟨1, 0, 0⟩] = RNode.mk ⟨-1, -1, 0, 0⟩ [⟨1, 0, 0⟩] [] := by
    norm_num [buildTree, rtree_insert, insertNode, add_data_point, freshNode, freshMBR,
      RNode.child_nodes, RNode.data_points, RNode.mbr, B]
  have h2 : update_mbr (RNode.mk ⟨-1, -1, 0, 0⟩ [⟨1, 0, 0⟩] [])
      = RNode.mk ⟨0, 0, 0, 0⟩ [⟨1, 0, 0⟩] [] := by
    norm_num [update_mbr, listMin, listMax, RNode.child_nodes, RNode.data_points]
  rw [h1, h2]
  refine ⟨rfl, rfl, ?_⟩
  intro hEq
  have := congrArg RNode.mbr hEq
  simp only [RNode.mbr] at this
  have := congrArg MBR.x1 this
  norm_num at this

/-- C4 (amended): a non-overflowing insertion (the receiving leaf still
has room) into a tree whose root is an internal node recomputes the
rectangle of every node on the descent path *strictly below the root* to
the tight bound of its content (recompute is a no-op on them), but leaves
the root's own rectangle unchanged rather than recomputing it. -/
theorem C4_non_root_ancestors_recomputed (t : RNode) (p : Point)
    (hroot : t.child_nodes ≠ [])
    (hroom : (receivingLeaf t p).data_points.length < B) :
    ∃ t', insertNode t p = Sum.inl t' ∧ t'.mbr = t.mbr ∧
      ∀ js n, js ≠ [] → js <+: pathIndices t p → getPath t' js = some n →
        update_mbr n = n := by
  obtain ⟨t', h1, h2, h3⟩ := insert_noSplit t.size t (le_refl _) p hroom
  exact ⟨t', h1, h2 hroot, h3⟩

/-- C4 counterexample: after inserting
`(1,0,0), (2,5,5), (3,1,1), (4,10,0), (5,0,10)` (which splits the root)
and then the non-overflowing sixth point `(6,100,100)`, the root of the
resulting tree keeps its old rectangle `(0,0,10,10)`: it is *not*
recomputed to the tight bound `(0,0,100,100)`, refuting "every ancestor up
to and including the root has its rectangle recomputed". -/
theorem C4_counterexample_root_stale :
    (buildTree [⟨1, 0, 0⟩, ⟨2, 5, 5⟩, ⟨3, 1, 1⟩, ⟨4, 10, 0⟩, ⟨5, 0, 10⟩]).child_nodes ≠ [] ∧
    (receivingLeaf (buildTree [⟨1, 0, 0⟩, ⟨2, 5, 5⟩, ⟨3, 1, 1⟩, ⟨4, 10, 0⟩, ⟨5, 0, 10⟩])
      ⟨6, 100, 100⟩).data_points.length < B ∧
    (rtree_insert (buildTree [⟨1, 0, 0⟩, ⟨2, 5, 5⟩, ⟨3, 1, 1⟩, ⟨4, 10, 0⟩, ⟨5, 0, 10⟩])
      ⟨6, 100, 100⟩).mbr = ⟨0, 0, 10, 10⟩ ∧
    (update_mbr (rtree_insert
        (buildTree [⟨1, 0, 0⟩, ⟨2, 5, 5⟩, ⟨3, 1, 1⟩, ⟨4, 10, 0⟩, ⟨5, 0, 10⟩])
        ⟨6, 100, 100⟩)).mbr = ⟨0, 0, 100, 100⟩ := by
  have h5 : buildTree [⟨1, 0, 0⟩, ⟨2, 5, 5⟩, ⟨3, 1, 1⟩, ⟨4, 10, 0⟩, ⟨5, 0, 10⟩]
      = RNode.mk ⟨0, 0, 10, 10⟩ []
          [RNode.mk ⟨0, 0, 1, 10⟩ [⟨1, 0, 0⟩, ⟨5, 0, 10⟩, ⟨3, 1, 1⟩] [],
           RNode.mk ⟨5, 0, 10, 5⟩ [⟨2, 5, 5⟩, ⟨4, 10, 0⟩] []] := by
    norm_num [buildTree, rtree_insert, insertNode, insertChild, add_data_point, freshNode,
      freshMBR, RNode.child_nodes, RNode.data_points, RNode.mbr, B, split, splitCandidates,
      splitCandidatesLeaf, splitCandidatesInternal, sortByKey, stableInsert, pickBest, pyRange,
      minFill_eq, update_mbr, listMin, listMax, chooseIdx, chooseIdxAux, peri_increase,
      perimeter, add_child, sumPeri, List.range']
  rw [h5]
  refine ⟨by simp [RNode.child_nodes], ?_, ?_, ?_⟩
  · norm_num [receivingLeaf, receivingLeafChild, chooseIdx, chooseIdxAux, peri_increase,
      perimeter, nthChild, RNode.child_nodes, RNode.data_points, RNode.mbr, B]
  · norm_num [rtree_insert, insertNode, insertChild, add_data_point, RNode.child_nodes,
      RNode.data_points, RNode.mbr, B, chooseIdx, chooseIdxAux, peri_increase, perimeter,
      update_mbr, listMin, listMax]
  · norm_num [rtree_insert, insertNode, insertChild, add_data_point, RNode.child_nodes,
      RNode.data_points, RNode.mbr, B, chooseIdx, chooseIdxAux, peri_increase, perimeter,
      update_mbr, listMin, listMax]

/-- C4 witness: the amended theorem applied to the concrete six-point
scenario of the counterexample. -/
theorem C4_witness :
    (buildTree [⟨1, 0, 0⟩, ⟨2, 5, 5⟩, ⟨3, 1, 1⟩, ⟨4, 10, 0⟩, ⟨5, 0, 10⟩]).child_nodes ≠ [] ∧
    (receivingLeaf (buildTree [⟨1, 0, 0⟩, ⟨2, 5, 5⟩, ⟨3, 1, 1⟩, ⟨4, 10, 0⟩, ⟨5, 0, 10⟩])
      ⟨6, 100, 100⟩).data_points.length < B ∧
    ∃ t', insertNode (buildTree [⟨1, 0, 0⟩, ⟨2, 5, 5⟩, ⟨3, 1, 1⟩, ⟨4, 10, 0⟩, ⟨5, 0, 10⟩])
        ⟨6, 100, 100⟩ = Sum.inl t' ∧
      t'.mbr = (buildTree [⟨1, 0, 0⟩, ⟨2, 5, 5⟩, ⟨3, 1, 1⟩, ⟨4, 10, 0⟩, ⟨5, 0, 10⟩]).mbr ∧
      ∀ js n, js ≠ [] →
        js <+: pathIndices
          (buildTree [⟨1, 0, 0⟩, ⟨2, 5, 5⟩, ⟨3, 1, 1⟩, ⟨4, 10, 0⟩, ⟨5, 0, 10⟩]) ⟨6, 100, 100⟩ →
        getPath t' js = some n → update_mbr n = n := by
  have h5 : buildTree [⟨1, 0, 0⟩, ⟨2, 5, 5⟩, ⟨3, 1, 1⟩, ⟨4, 10, 0⟩, ⟨5, 0, 10⟩]
      = RNode.mk ⟨0, 0, 10, 10⟩ []
          [RNode.mk ⟨0, 0, 1, 10⟩ [⟨1, 0, 0⟩, ⟨5, 0, 10⟩, ⟨3, 1, 1⟩] [],
           RNode.mk ⟨5, 0, 10, 5⟩ [⟨2, 5, 5⟩, ⟨4, 10, 0⟩] []] := by
    norm_num [buildTree, rtree_insert, insertNode, insertChild, add_data_point, freshNode,
      freshMBR, RNode.child_nodes, RNode.data_points, RNode.mbr, B, split, splitCandidates,
      splitCandidatesLeaf, splitCandidatesInternal, sortByKey, stableInsert, pickBest, pyRange,
      minFill_eq, update_mbr, listMin, listMax, chooseIdx, chooseIdxAux, peri_increase,
      perimeter, add_child, sumPeri, List.range']
  have hroot : (buildTree [⟨1, 0, 0⟩, ⟨2, 5, 5⟩, ⟨3, 1, 1⟩, ⟨4, 10, 0⟩,
      ⟨5, 0, 10⟩]).child_nodes ≠ [] := by
    rw [h5]
    simp [RNode.child_nodes]
  have hroom : (receivingLeaf
      (buildTree [⟨1, 0, 0⟩, ⟨2, 5, 5⟩, ⟨3, 1, 1⟩, ⟨4, 10, 0⟩, ⟨5, 0, 10⟩])
      ⟨6, 100, 100⟩).data_points.length < B := by
    rw [h5]
    norm_num [receivingLeaf, receivingLeafChild, chooseIdx, chooseIdxAux, peri_increase,
      perimeter, nthChild, RNode.child_nodes, RNode.data_points, RNode.mbr, B]
  exact ⟨hroot, hroom, C4_non_root_ancestors_recomputed _ _ hroot hroom⟩
